import Mathlib

/-!
Verification of the PSARC archive codec of `src/psarc.rs` (pack pipeline,
extract pipeline, manifest resolver, path hasher, incremental cache reuse).

The Rust code is shallowly embedded: byte blobs are `List Nat` (each entry a
byte value), Rust `String`/`str` values are `List Char`, fallible operations
return `Except`/`Option`.  The zlib codec of the `flate2` crate and the MD5
digest of the `md5` crate are external libraries, not code of this
repository; they enter the model as function parameters (`compress`,
`decompress`, `md5`), and theorems state the hypotheses about them that the
real libraries satisfy (inverse property, zlib stream header, 16-byte
digest).  Filesystem effects are modelled by value passing: a directory is a
list of `(relative path, file contents)` pairs in walk order, and the bytes
the pack pipeline would write to the output file are returned as a value.
-/

namespace Psarc

/-- Instance so that `decide` can evaluate equalities of `Except` results. -/
def exceptDecEq {ε α : Type} [DecidableEq ε] [DecidableEq α] : DecidableEq (Except ε α)
  | .error a, .error b => if h : a = b then .isTrue (by rw [h]) else .isFalse (by intro c; cases c; exact h rfl)
  | .error _, .ok _ => .isFalse (by intro c; cases c)
  | .ok _, .error _ => .isFalse (by intro c; cases c)
  | .ok a, .ok b => if h : a = b then .isTrue (by rw [h]) else .isFalse (by intro c; cases c; exact h rfl)

attribute [instance] exceptDecEq

/-- A byte blob (`Vec<u8>` / `&[u8]` / mmap contents).  Entries are byte
values; nothing in the model truncates them, bounds are proved where the
format needs them. -/
abbrev Bytes := List Nat

/-- A Rust `String` / `&str`, as its character sequence. -/
abbrev Str := List Char

/-- `const BLOCK_SIZE: usize = 65536` from `psarc.rs`. -/
def BLOCK_SIZE : Nat := 65536

/-! ## ASCII case folding (`char::is_ascii_lowercase`, `to_ascii_uppercase`) -/

/-- Rust `char::is_ascii_lowercase`. -/
def isAsciiLower (c : Char) : Bool := 97 ≤ c.toNat && c.toNat ≤ 122

/-- Rust `char::is_ascii_uppercase`. -/
def isAsciiUpper (c : Char) : Bool := 65 ≤ c.toNat && c.toNat ≤ 90

/-- Rust `char::to_ascii_uppercase`. -/
def asciiUpper (c : Char) : Char := if isAsciiLower c then Char.ofNat (c.toNat - 32) else c

/-- Rust `char::to_ascii_lowercase`. -/
def asciiLower (c : Char) : Char := if isAsciiUpper c then Char.ofNat (c.toNat + 32) else c

/-- Rust `str::to_ascii_uppercase` (per character). -/
def upperStr (s : Str) : Str := s.map asciiUpper

/-- Rust `str::to_ascii_lowercase` (per character). -/
def lowerStr (s : Str) : Str := s.map asciiLower

/-! ## Rust string utilities used by the codec -/

/-- The `White_Space` code points, as trimmed by Rust `str::trim`. -/
def isRustWhitespace (c : Char) : Bool :=
  (c.toNat ∈ ([9, 10, 11, 12, 13, 32, 133, 160, 5760, 8232, 8233, 8239, 8287, 12288] : List Nat))
    || (8192 ≤ c.toNat && c.toNat ≤ 8202)

/-- Rust `str::trim`: strip whitespace from both ends. -/
def trimStr (s : Str) : Str :=
  ((s.dropWhile isRustWhitespace).reverse.dropWhile isRustWhitespace).reverse

/-- Rust `str::split(pred)`: split at every separator, keeping empty pieces;
`n` separators yield `n + 1` pieces. -/
def splitOnPred (p : Char → Bool) : Str → List Str
  | [] => [[]]
  | c :: rest =>
    match splitOnPred p rest with
    | [] => [[]]
    | h :: t => if p c then [] :: h :: t else (c :: h) :: t

/-- Strip one trailing carriage return, as Rust `str::lines` does per line. -/
def stripTrailingCR (l : Str) : Str :=
  if l.getLast? = some (Char.ofNat 13) then l.dropLast else l

/-- Rust `str::lines`: split on `\n`, drop a final empty piece produced by a
trailing newline, and strip one trailing `\r` from each line. -/
def linesStr (s : Str) : List Str :=
  let parts := splitOnPred (fun c => c = Char.ofNat 10) s
  let parts := if parts.getLast? = some [] then parts.dropLast else parts
  parts.map stripTrailingCR

/-! ## Chunking (`slice::chunks(BLOCK_SIZE)`) -/

/-- Fuel-driven worker for `chunksOf`; fuel `≥ length` suffices when the
chunk size is positive. -/
def chunksOfAux (n : Nat) : Nat → List α → List (List α)
  | 0, _ => []
  | _, [] => []
  | fuel + 1, l => l.take n :: chunksOfAux n fuel (l.drop n)

/-- Rust `slice::chunks(n)`: consecutive chunks of length `n`, the last one
possibly shorter; the empty slice has no chunks. -/
def chunksOf (n : Nat) (l : List α) : List (List α) := chunksOfAux n l.length l

/-! ## Association-list model of `HashMap` (insert overwrites, remove deletes) -/

/-- `HashMap::get`: value of the key, if present. -/
def lookupA {κ α : Type} [DecidableEq κ] (m : List (κ × α)) (k : κ) : Option α :=
  (m.find? (fun kv => decide (kv.1 = k))).map (fun kv => kv.2)

/-- `HashMap::remove` (the mapping disappears). -/
def removeA {κ α : Type} [DecidableEq κ] (m : List (κ × α)) (k : κ) : List (κ × α) :=
  m.filter (fun kv => decide (¬ kv.1 = k))

/-- `HashMap::insert` (overwrites an existing mapping for the key). -/
def insertA {κ α : Type} [DecidableEq κ] (m : List (κ × α)) (k : κ) (v : α) : List (κ × α) :=
  (k, v) :: removeA m k

/-! ## Big-endian integer serialization (`byteorder::BigEndian`) -/

/-- `write_u16::<BigEndian>` (the `as u16` cast reduces the value mod 2^16). -/
def be16 (n : Nat) : Bytes := [n % 65536 / 256, n % 256]

/-- `write_u32::<BigEndian>` (the `as u32` cast reduces the value mod 2^32). -/
def be32 (n : Nat) : Bytes :=
  [n % 4294967296 / 16777216, n % 16777216 / 65536, n % 65536 / 256, n % 256]

/-- Big-endian value of a byte slice. -/
def beNat (l : Bytes) : Nat := l.foldl (fun a b => a * 256 + b) 0

/-- `read_exact` of `n` bytes at absolute position `i` of a memory-mapped
blob: fails (like `io::ErrorKind::UnexpectedEof`) past the end. -/
def readSlice (b : Bytes) (i n : Nat) : Option Bytes :=
  if i + n ≤ b.length then some ((b.drop i).take n) else none

/-- `read_u8` at position `i`. -/
def readU8 (b : Bytes) (i : Nat) : Option Nat := (readSlice b i 1).map beNat

/-- `read_u16::<BigEndian>` at position `i`. -/
def readU16 (b : Bytes) (i : Nat) : Option Nat := (readSlice b i 2).map beNat

/-- `read_u32::<BigEndian>` at position `i`. -/
def readU32 (b : Bytes) (i : Nat) : Option Nat := (readSlice b i 4).map beNat

/-! ## UTF-8 (`String::from_utf8`, `String::from_utf8_lossy`, `str::as_bytes`)

The Rust standard library's UTF-8 codec, modelled exactly on well-formed
input.  `invalidSkip` approximates `from_utf8_lossy`'s maximal-subpart
replacement policy on ill-formed input (it ignores the tightened second-byte
ranges when measuring the subpart); no theorem below depends on the lossy
behaviour on ill-formed input. -/

/-- Encode one unicode scalar value. -/
def utf8EncodeScalar (n : Nat) : Bytes :=
  if n < 128 then [n]
  else if n < 2048 then [192 + n / 64, 128 + n % 64]
  else if n < 65536 then [224 + n / 4096, 128 + n / 64 % 64, 128 + n % 64]
  else [240 + n / 262144, 128 + n / 4096 % 64, 128 + n / 64 % 64, 128 + n % 64]

/-- Encode one `char`. -/
def utf8EncodeChar (c : Char) : Bytes := utf8EncodeScalar c.toNat

/-- Rust `str::as_bytes` / `String::into_bytes`. -/
def utf8EncodeStr (s : Str) : Bytes := (s.map utf8EncodeChar).flatten

/-- Is a byte a UTF-8 continuation byte? -/
def isCont (b : Nat) : Bool := 128 ≤ b && b < 192

/-- Decode one scalar value from the front: `some (scalar, bytes consumed)`,
or `none` on ill-formed input (overlong forms, surrogates and values above
U+10FFFF rejected, as in Rust). -/
def utf8DecodeStep : Bytes → Option (Nat × Nat)
  | [] => none
  | b0 :: rest =>
    if b0 < 128 then some (b0, 1)
    else if b0 < 194 then none
    else if b0 < 224 then
      match rest with
      | b1 :: _ => if isCont b1 then some ((b0 - 192) * 64 + (b1 - 128), 2) else none
      | [] => none
    else if b0 < 240 then
      match rest with
      | b1 :: b2 :: _ =>
        if isCont b1 && isCont b2 && (decide (b0 ≠ 224) || decide (160 ≤ b1))
            && (decide (b0 ≠ 237) || decide (b1 < 160)) then
          some ((b0 - 224) * 4096 + (b1 - 128) * 64 + (b2 - 128), 3)
        else none
      | _ => none
    else if b0 < 245 then
      match rest with
      | b1 :: b2 :: b3 :: _ =>
        if isCont b1 && isCont b2 && isCont b3 && (decide (b0 ≠ 240) || decide (144 ≤ b1))
            && (decide (b0 ≠ 244) || decide (b1 < 144)) then
          some ((b0 - 240) * 262144 + (b1 - 128) * 4096 + (b2 - 128) * 64 + (b3 - 128), 4)
        else none
      | _ => none
    else none

/-- Length of the maximal ill-formed subpart at the front (approximate, see
the section comment). -/
def invalidSkip : Bytes → Nat
  | [] => 1
  | b0 :: rest =>
    let want := if 194 ≤ b0 && b0 < 224 then 1
      else if 224 ≤ b0 && b0 < 240 then 2
      else if 240 ≤ b0 && b0 < 245 then 3 else 0
    1 + ((rest.take want).takeWhile isCont).length

/-- Fuel-driven strict decoding; fuel `≥ length` suffices. -/
def utf8DecodeAux : Nat → Bytes → Option Str
  | _, [] => some []
  | 0, _ :: _ => none
  | fuel + 1, l =>
    match utf8DecodeStep l with
    | none => none
    | some (n, k) => (utf8DecodeAux fuel (l.drop k)).map (fun cs => Char.ofNat n :: cs)

/-- Rust `String::from_utf8` (as used on the on-disk manifest blob). -/
def from_utf8 (b : Bytes) : Option Str := utf8DecodeAux b.length b

/-- Fuel-driven lossy decoding; fuel `≥ length` suffices. -/
def utf8LossyAux : Nat → Bytes → Str
  | _, [] => []
  | 0, _ :: _ => []
  | fuel + 1, l =>
    match utf8DecodeStep l with
    | some (n, k) => Char.ofNat n :: utf8LossyAux fuel (l.drop k)
    | none => Char.ofNat 65533 :: utf8LossyAux fuel (l.drop (invalidSkip l))

/-- Rust `String::from_utf8_lossy` (as used on the extracted manifest). -/
def utf8Lossy (b : Bytes) : Str := utf8LossyAux b.length b

/-! ## Hex formatting (for `_Unknowns/<hex>.bin` names) -/

/-- One lowercase hex digit. -/
def hexDigitChar (n : Nat) : Char := if n < 10 then Char.ofNat (48 + n) else Char.ofNat (87 + n)

/-- `format!("{:02x}", byte)`. -/
def hexByteStr (n : Nat) : Str := [hexDigitChar (n / 16 % 16), hexDigitChar (n % 16)]

/-! ## Data model (`psarc.rs` structs and enums) -/

/-- `enum PackingMode` from `psarc.rs`. -/
inductive PackingMode
  | Full
  | Incremental
deriving DecidableEq, Repr

/-- `struct Entry` from `psarc.rs`.  During pack `offset` is relative to the
start of the data region ("will fix up later"); the serializer adds
`toc_length`, and the parser reads back the absolute offset. -/
structure Entry where
  name_hash : Bytes
  zsize_index : Nat
  uncompressed_size : Nat
  offset : Nat
deriving DecidableEq, Repr

/-- `struct CachedFileData` from `psarc.rs` (incremental cache entry).  The
`ZSize` wrapper struct is flattened to the `u16` value it holds. -/
structure CachedFileData where
  compressed_data : Bytes
  zsizes : List Nat
  uncompressed_size : Nat
deriving DecidableEq, Repr

/-- `struct ProcessedFile` from `psarc.rs`. -/
structure ProcessedFile where
  file_idx : Nat
  compressed_data : Bytes
  zsizes : List Nat
  entry : Entry
deriving DecidableEq, Repr

/-- The only pack failure the embedding can produce: `resolve_file_order`'s
`io::ErrorKind::NotFound` error "File list references missing files: ...".
I/O faults of the real filesystem have no counterpart in the value model. -/
inductive PackErr
  | ManifestReferenceMissing (missing : List Str)
deriving DecidableEq, Repr

/-- Extract failures, keyed by the `io::Error` the source constructs:
`Eof` for `read_exact` past the end, `BadMagic` for the
"Invalid PSARC magic number" error, `UnsupportedCompression` for the
`io::ErrorKind::Unsupported` error, and `InvalidData` for every
`io::ErrorKind::InvalidData` corruption error of the block reader (bad zsize
index, out-of-bounds block, failed inflate); an out-of-bounds direct index
into the mmap (a Rust panic) is modelled as `InvalidData` as well. -/
inductive ExtractErr
  | Eof
  | BadMagic
  | UnsupportedCompression (tag : Bytes)
  | InvalidData
deriving DecidableEq, Repr

/-- Result of `extract_psarc_internal`: the manifest blob persisted as
`FileList.xml` in the output directory (if entry 0 was readable), and the
`(relative output path, file bytes)` pairs written by the per-entry loop, in
TOC order. -/
structure ExtractResult where
  filelist_saved : Option Bytes
  files : List (Str × Bytes)
deriving DecidableEq, Repr

/-- The pack pipeline's state just before Phase 3 (writing the final
output): TOC entries (entry 0 first, offsets relative to the data region),
the ZSize table, the bytes of the temporary data file, and the
`(recompressed_count, reused_count)` statistics the function returns. -/
structure PackOutcome where
  entries : List Entry
  zsizes : List Nat
  data : Bytes
  recompressed : Nat
  reused : Nat
deriving DecidableEq, Repr

instance : Inhabited PackOutcome := ⟨⟨[], [], [], 0, 0⟩⟩

instance : Inhabited ExtractResult := ⟨⟨none, []⟩⟩

/-! ## Path hasher (`calculate_md5`)

The MD5 digest itself comes from the external `md5` crate; the embedding
takes it as the parameter `md5` (applied to the character sequence the
source feeds to `hasher.update`). -/

/-- `calculate_md5` from `psarc.rs`: hash of the ASCII-uppercased path, with
the source's no-allocation shortcut when no ASCII lowercase is present. -/
def calculate_md5 (md5 : Str → Bytes) (path : Str) : Bytes :=
  if path.all (fun c => !(isAsciiLower c)) then md5 path else md5 (upperStr path)

/-! ## Directory scan (Phase 1 of `pack_directory_internal`)

A directory is the list of `(relative forward-slash path, contents)` pairs
in walk order, with `strip_prefix` and the backslash replacement already
applied by the caller; the "skip the output file" test is a no-op under the
round-trip claim's precondition that no path equals the output, so the model
starts from the relative entries. -/

/-- Is this internal path the manifest (`name_lower == "filelist.xml"`)? -/
def isFilelistName (p : Str) : Bool :=
  lowerStr p = ['f', 'i', 'l', 'e', 'l', 'i', 's', 't', '.', 'x', 'm', 'l']

/-- The scan loop: every `filelist.xml` (case-insensitive) is excluded from
the discovered files, and the first one's bytes become the on-disk manifest
blob. -/
def scanDir : List (Str × Bytes) → List (Str × Bytes) × Option Bytes
  | [] => ([], none)
  | (p, c) :: rest =>
    let r := scanDir rest
    if isFilelistName p then (r.1, some c) else ((p, c) :: r.1, r.2)

/-! ## Manifest resolver (`resolve_file_order` and helpers) -/

/-- `normalize_manifest_lines` from `psarc.rs`: split into lines, trim, strip
leading byte-order marks, drop empty lines, replace backslashes. -/
def normalize_manifest_lines (text : Str) : List Str :=
  (linesStr text).filterMap (fun line =>
    let trimmed := (trimStr line).dropWhile (fun c => c = Char.ofNat 65279)
    if trimmed.isEmpty then none
    else some (trimmed.map (fun c => if c = '\\' then '/' else c)))

/-- Newline-joined path list (no trailing newline), before encoding. -/
def joinNL : List Str → Str
  | [] => []
  | [p] => p
  | p :: rest => p ++ '\n' :: joinNL rest

/-- `manifest_bytes_from_paths` from `psarc.rs`: each path's bytes, with a
`\n` between consecutive paths and no trailing newline. -/
def manifest_bytes_from_paths (paths : List Str) : Bytes := utf8EncodeStr (joinNL paths)

/-- `Ord::cmp` for byte sequences (`[u8; 16]` arrays compare element-wise,
i.e. lexicographically). -/
def cmpNatList : List Nat → List Nat → Ordering
  | [], [] => .eq
  | [], _ :: _ => .lt
  | _ :: _, [] => .gt
  | a :: xs, b :: ys => match compare a b with | .eq => cmpNatList xs ys | o => o

/-- Stable insertion for the hash sort: a new element goes after existing
elements with equal or smaller key, matching `sort_by`'s stability. -/
def insertByHash (md5 : Str → Bytes) (x : Str × Bytes) : List (Str × Bytes) → List (Str × Bytes)
  | [] => [x]
  | y :: ys =>
    if cmpNatList (calculate_md5 md5 x.1) (calculate_md5 md5 y.1) = .lt then x :: y :: ys
    else y :: insertByHash md5 x ys

/-- `files.sort_by(|a, b| calculate_md5(&a.1).cmp(&calculate_md5(&b.1)))`:
a stable sort by ascending MD5 of the internal path. -/
def sortByHash (md5 : Str → Bytes) (l : List (Str × Bytes)) : List (Str × Bytes) :=
  l.foldl (fun acc x => insertByHash md5 x acc) []

/-- The fallback tail of `resolve_file_order`: hash-sort the discovered files
and regenerate the manifest bytes by joining the internal paths. -/
def hashSortFallback (md5 : Str → Bytes) (discovered_files : List (Str × Bytes)) :
    List (Str × Bytes) × Bytes :=
  let files := sortByHash md5 discovered_files
  (files, manifest_bytes_from_paths (files.map (fun pc => pc.1)))

/-- The `path_map` built from the discovered files (internal path, contents
standing in for the `PathBuf`); later duplicates overwrite earlier ones like
`HashMap::from_iter`. -/
def buildPathMap (discovered_files : List (Str × Bytes)) : List (Str × Bytes) :=
  discovered_files.foldl (fun m pc => insertA m pc.1 pc.2) []

/-- The matching loop of `resolve_file_order`: claim each manifest path from
the map (removing it), collecting matched `(path, contents)` pairs in
manifest order and unmatched manifest paths in `missing`; returns the final
map as well. -/
def matchManifestPaths (m : List (Str × Bytes)) :
    List Str → List (Str × Bytes) × List Str × List (Str × Bytes)
  | [] => ([], [], m)
  | p :: rest =>
    match lookupA m p with
    | some c =>
      let r := matchManifestPaths (removeA m p) rest
      ((p, c) :: r.1, r.2.1, r.2.2)
    | none =>
      let r := matchManifestPaths m rest
      (r.1, p :: r.2.1, r.2.2)

/-- `resolve_file_order` from `psarc.rs`. -/
def resolve_file_order (md5 : Str → Bytes) (discovered_files : List (Str × Bytes))
    (manifest_bytes_on_disk : Option Bytes) :
    Except PackErr (List (Str × Bytes) × Bytes) :=
  match manifest_bytes_on_disk with
  | some bytes =>
    match from_utf8 bytes with
    | some text =>
      let manifest_paths := normalize_manifest_lines text
      if manifest_paths = [] then .ok (hashSortFallback md5 discovered_files)
      else
        let r := matchManifestPaths (buildPathMap discovered_files) manifest_paths
        if r.2.1 = [] ∧ r.2.2 = [] then .ok (r.1, manifest_bytes_from_paths manifest_paths)
        else if ¬ r.2.1 = [] then .error (.ManifestReferenceMissing r.2.1)
        else .ok (hashSortFallback md5 discovered_files)
    | none => .ok (hashSortFallback md5 discovered_files)
  | none => .ok (hashSortFallback md5 discovered_files)

/-! ## Block compression decisions (Phase 2 of `pack_directory_internal`) -/

/-- The per-block body of the real-file loop (lines 486-511): store the
compressed form iff strictly smaller; ZSize is the stored length for a
compressed block, `0` for a full raw block, and the raw length for a
partial raw block.  Returns `(stored bytes, zsize value)`; the `as u16`
cast happens at serialization (`be16`). -/
def processBlock (compress : Bytes → Bytes) (chunk : Bytes) : Bytes × Nat :=
  let compressed := compress chunk
  let is_worth_compressing := compressed.length < chunk.length
  let final_data := if is_worth_compressing then compressed else chunk
  let zsize_val :=
    if ¬ is_worth_compressing then
      if chunk.length = BLOCK_SIZE then 0 else chunk.length
    else final_data.length
  (final_data, zsize_val)

/-- The per-block body of the `FileList.xml` loop (lines 385-399): same
storage decision, but the ZSize of every raw block is `0`, even a partial
one. -/
def processManifestBlock (compress : Bytes → Bytes) (chunk : Bytes) : Bytes × Nat :=
  let compressed := compress chunk
  let is_compressed := compressed.length < chunk.length
  let final_data := if is_compressed then compressed else chunk
  let zsize := if is_compressed then compressed.length else 0
  (final_data, zsize)

/-- Chunk the manifest bytes and process every block (entry 0's data and
ZSize run). -/
def processManifestData (compress : Bytes → Bytes) (m : Bytes) : Bytes × List Nat :=
  let chunks := chunksOf BLOCK_SIZE m
  ((chunks.map (fun ch => (processManifestBlock compress ch).1)).flatten,
   chunks.map (fun ch => (processManifestBlock compress ch).2))

/-- Chunk a real file's contents and process every block. -/
def processFileData (compress : Bytes → Bytes) (content : Bytes) : Bytes × List Nat :=
  let chunks := chunksOf BLOCK_SIZE content
  ((chunks.map (fun ch => (processBlock compress ch).1)).flatten,
   chunks.map (fun ch => (processBlock compress ch).2))

/-- The closure of the `par_iter` over real files (lines 428-525): decide
cache reuse via `should_recompress`, with the early returns for a cache hit
and for a zero-length file.  `zsize_index` and `offset` are placeholders
fixed in the sequential write phase. -/
def processOneFile (compress : Bytes → Bytes) (mode : PackingMode) (modified_set : List Str)
    (cache : List (Bytes × CachedFileData)) (file_idx : Nat) (psarc_path : Str)
    (content : Bytes) (name_hash : Bytes) : ProcessedFile :=
  let should_recompress := decide (mode = PackingMode.Full) || modified_set.contains psarc_path
    || (lookupA cache name_hash).isNone
  match (if should_recompress then none else lookupA cache name_hash) with
  | some cached =>
    ⟨file_idx, cached.compressed_data, cached.zsizes, ⟨name_hash, 0, cached.uncompressed_size, 0⟩⟩
  | none =>
    if content.length = 0 then ⟨file_idx, [], [], ⟨name_hash, 0, 0, 0⟩⟩
    else
      let pd := processFileData compress content
      ⟨file_idx, pd.1, pd.2, ⟨name_hash, 0, content.length, 0⟩⟩

/-- `files.par_iter().enumerate().map(...)`, already in `file_idx` order (the
source sorts the parallel results back by `file_idx`).  The per-file hash
precomputation (`file_hashes`) is inlined. -/
def processFilesFrom (compress : Bytes → Bytes) (md5 : Str → Bytes) (mode : PackingMode)
    (modified_set : List Str) (cache : List (Bytes × CachedFileData)) (k : Nat) :
    List (Str × Bytes) → List ProcessedFile
  | [] => []
  | pc :: rest =>
    processOneFile compress mode modified_set cache k pc.1 pc.2 (calculate_md5 md5 pc.1)
      :: processFilesFrom compress md5 mode modified_set cache (k + 1) rest

/-- The sequential write loop (lines 535-577) over the processed files
zipped with the file list (the source indexes `files[pf.file_idx]`, and
`file_idx` is the position): accumulates entries with their
`zsize_index`/`offset` fix-ups, the ZSize table fragment, the data bytes,
and the `(recompressed, reused)` statistics recomputed from `was_reused`. -/
def writeProcessedAux (mode : PackingMode) (modified_set : List Str)
    (cache : List (Bytes × CachedFileData)) :
    List ((Str × Bytes) × ProcessedFile) → Nat → Nat →
      List Entry × List Nat × Bytes × Nat × Nat
  | [], _, _ => ([], [], [], 0, 0)
  | (pc, pf) :: rest, zlen, off =>
    let was_reused := decide (mode = PackingMode.Incremental)
      && !(modified_set.contains pc.1) && (lookupA cache pf.entry.name_hash).isSome
    let r := writeProcessedAux mode modified_set cache rest (zlen + pf.zsizes.length)
      (off + pf.compressed_data.length)
    (⟨pf.entry.name_hash, zlen, pf.entry.uncompressed_size, off⟩ :: r.1,
     pf.zsizes ++ r.2.1,
     pf.compressed_data ++ r.2.2.1,
     (if was_reused then r.2.2.2.1 else r.2.2.2.1 + 1),
     (if was_reused then r.2.2.2.2 + 1 else r.2.2.2.2))

/-- The `modified_set` normalization (lines 415-418): backslashes replaced
by forward slashes in every modified path. -/
def normalizeModified (modified_files : List Str) : List Str :=
  modified_files.map (fun p => p.map (fun c => if c = '\\' then '/' else c))

/-- The cache-reuse condition of the incremental mode, as both the parallel
processing phase (`should_recompress`, lines 432-434) and the statistics
recomputation (`was_reused`, lines 540-542) test it for a real file: the
internal path is not in the normalized modified set and the cache holds the
name hash. -/
def reuseCond (md5 : Str → Bytes) (modified_files : List Str)
    (cache : List (Bytes × CachedFileData)) (pc : Str × Bytes) : Prop :=
  (normalizeModified modified_files).contains pc.1 = false ∧
    (lookupA cache (calculate_md5 md5 pc.1)).isSome = true

instance (md5 : Str → Bytes) (modified_files : List Str)
    (cache : List (Bytes × CachedFileData)) (pc : Str × Bytes) :
    Decidable (reuseCond md5 modified_files cache pc) :=
  inferInstanceAs (Decidable (_ ∧ _))

/-- Phases 1 and 2 of `pack_directory_internal`: everything up to (but not
including) the serialization of the final archive bytes.  The incremental
cache is passed in directly, standing for a successfully loaded
`load_psarc_cache` result (an absent or unloadable prior archive is the
empty cache). -/
def packCore (compress : Bytes → Bytes) (md5 : Str → Bytes) (mode : PackingMode)
    (modified_files : List Str) (cache : List (Bytes × CachedFileData))
    (dir : List (Str × Bytes)) : Except PackErr PackOutcome :=
  let scanned := scanDir dir
  match resolve_file_order md5 scanned.1 scanned.2 with
  | .error e => .error e
  | .ok (files, filelist_bytes) =>
    let md := processManifestData compress filelist_bytes
    let entry0 : Entry := ⟨List.replicate 16 0, 0, filelist_bytes.length, 0⟩
    let modified_set := normalizeModified modified_files
    let pfs := processFilesFrom compress md5 mode modified_set cache 0 files
    let w := writeProcessedAux mode modified_set cache (files.zip pfs) md.2.length md.1.length
    .ok ⟨entry0 :: w.1, md.2 ++ w.2.1, md.1 ++ w.2.2.1, w.2.2.2.1, w.2.2.2.2⟩

/-- The bytes `b"PSAR"`. -/
def psarMagic : Bytes := [80, 83, 65, 82]

/-- The bytes `b"zlib"`. -/
def zlibTag : Bytes := [122, 108, 105, 98]

/-- Serialize one TOC entry (Phase 3): 16 hash bytes, `u32` zsize index,
40-bit uncompressed size, 40-bit absolute offset (`entry.offset +
toc_length`). -/
def renderEntry (toc_length : Nat) (e : Entry) : Bytes :=
  e.name_hash ++ be32 e.zsize_index
    ++ [e.uncompressed_size / 4294967296 % 256] ++ be32 e.uncompressed_size
    ++ [(e.offset + toc_length) / 4294967296 % 256] ++ be32 (e.offset + toc_length)

/-- Phase 3 of `pack_directory_internal`: header, TOC, ZSize table, then the
temporary data file's bytes. -/
def renderArchive (o : PackOutcome) : Bytes :=
  let toc_length := 32 + 30 * o.entries.length + 2 * o.zsizes.length
  psarMagic ++ be16 1 ++ be16 4 ++ zlibTag
    ++ be32 toc_length ++ be32 30 ++ be32 o.entries.length ++ be32 BLOCK_SIZE ++ be32 1
    ++ (o.entries.map (renderEntry toc_length)).flatten
    ++ (o.zsizes.map be16).flatten
    ++ o.data

/-- `pack_directory_internal` from `psarc.rs`: returns the archive bytes the
pipeline writes to the output file and the `(recompressed_count,
reused_count)` pair.  On a resolver error nothing has been written (the
output file is only created in Phase 3, after `resolve_file_order`
returned). -/
def pack_directory_internal (compress : Bytes → Bytes) (md5 : Str → Bytes) (mode : PackingMode)
    (modified_files : List Str) (cache : List (Bytes × CachedFileData))
    (dir : List (Str × Bytes)) : Except PackErr (Bytes × Nat × Nat) :=
  (packCore compress md5 mode modified_files cache dir).map
    (fun o => (renderArchive o, o.recompressed, o.reused))

/-! ## Extract pipeline (`extract_psarc_internal`, `read_file_data`)

`decompress` stands for `flate2::read::ZlibDecoder`'s `read_to_end`
(`none` = `InflateFailed`). -/

/-- The zlib magic probe of `read_file_data` (lines 1116-1119): at least two
bytes, first `0x78`, second in `{0x9C, 0xDA, 0x01, 0x5E}`. -/
def isZlibHeader (l : Bytes) : Bool :=
  match l with
  | b0 :: b1 :: _ => b0 = 120 && (b1 = 156 || b1 = 218 || b1 = 1 || b1 = 94)
  | _ => false

/-- The block-reading loop of `read_file_data`, with explicit fuel: the Rust
loop does not terminate on adversarial inputs where a block contributes no
bytes forever, which the model maps to `InvalidData` at fuel exhaustion; on
well-formed archives `uncompressed_size` units of fuel are never exhausted
(each block consumes one unit and there are at most `uncompressed_size`
blocks). -/
def readFileLoop (decompress : Bytes → Option Bytes) (b : Bytes) (unc : Nat)
    (zsizes : List Nat) (block_size : Nat) :
    Nat → Bytes → Nat → Nat → Nat → Except ExtractErr Bytes
  | fuel, result, off, zidx, remaining =>
    if unc ≤ result.length then .ok result
    else match fuel with
      | 0 => .error .InvalidData
      | fuel + 1 =>
        match zsizes[zidx]? with
        | none => .error .InvalidData
        | some z =>
          let compressed_size := if z = 0 then block_size else z
          if b.length < off + compressed_size then .error .InvalidData
          else
            let compressed_data := (b.drop off).take compressed_size
            let step : Except ExtractErr Bytes :=
              if compressed_size = unc then .ok compressed_data
              else if z = 0 then
                if remaining < block_size then
                  .ok (compressed_data.take (min remaining compressed_data.length))
                else .ok compressed_data
              else
                let target_size := if remaining < block_size ∨ compressed_size = block_size
                  then remaining else block_size
                if isZlibHeader compressed_data then
                  match decompress compressed_data with
                  | none => .error .InvalidData
                  | some dblock =>
                    .ok (if target_size < dblock.length then dblock.take target_size else dblock)
                else .ok (compressed_data.take (min target_size compressed_data.length))
            match step with
            | .error e => .error e
            | .ok dec =>
              readFileLoop decompress b unc zsizes block_size fuel (result ++ dec)
                (off + compressed_size) (zidx + 1) (remaining - block_size)

/-- `read_file_data` from `psarc.rs`: bounds pre-check on the entry offset,
then the block loop starting from the entry's zsize index. -/
def read_file_data (decompress : Bytes → Option Bytes) (b : Bytes) (entry : Entry)
    (zsizes : List Nat) (block_size : Nat) : Except ExtractErr Bytes :=
  if b.length ≤ entry.offset then .error .InvalidData
  else readFileLoop decompress b entry.uncompressed_size zsizes block_size
    entry.uncompressed_size [] entry.offset entry.zsize_index entry.uncompressed_size

/-- The extraction-safety condition on one file's contents: if the file
spans more than one block and its final partial block is stored raw, those
raw bytes must not begin with a zlib stream header (otherwise the block
probe of `read_file_data` misfires and inflates raw data).  Real zlib output
satisfies the storage decision's premises almost always, but the condition
is not checked by the code. -/
def RawLastOk (compress : Bytes → Bytes) (c : Bytes) : Prop :=
  2 ≤ (chunksOf BLOCK_SIZE c).length →
  ¬ (compress ((chunksOf BLOCK_SIZE c).getLastD [])).length
      < ((chunksOf BLOCK_SIZE c).getLastD []).length →
  ((chunksOf BLOCK_SIZE c).getLastD []).length < BLOCK_SIZE →
  isZlibHeader ((chunksOf BLOCK_SIZE c).getLastD []) = false

instance (compress : Bytes → Bytes) (c : Bytes) : Decidable (RawLastOk compress c) :=
  inferInstanceAs (Decidable (_ → _ → _ → _))

/-- Parse one 30-byte TOC entry at `pos`: the `(high << 32) | low` 40-bit
fields become `high * 2^32 + low` (`low < 2^32`, so `|` is `+`). -/
def parseEntry (b : Bytes) (pos : Nat) : Option Entry := do
  let h ← readSlice b pos 16
  let zi ← readU32 b (pos + 16)
  let sh ← readU8 b (pos + 20)
  let sl ← readU32 b (pos + 21)
  let oh ← readU8 b (pos + 25)
  let ol ← readU32 b (pos + 26)
  pure ⟨h, zi, sh * 4294967296 + sl, oh * 4294967296 + ol⟩

/-- Parse `count` TOC entries from `pos`. -/
def parseEntries (b : Bytes) (pos : Nat) : Nat → Option (List Entry)
  | 0 => some []
  | n + 1 => do
    let e ← parseEntry b pos
    let rest ← parseEntries b (pos + 30) n
    pure (e :: rest)

/-- Read `count` big-endian `u16` ZSize values starting at `start` (the
source indexes the mmap directly; an out-of-bounds index is a panic,
modelled as `none`). -/
def parseZsizes (b : Bytes) (start : Nat) : Nat → Option (List Nat)
  | 0 => some []
  | n + 1 => do
    let z ← readU16 b start
    let rest ← parseZsizes b (start + 2) n
    pure (z :: rest)

/-- The per-line body of the filename-map loop (lines 922-944): skip blank
lines, then insert the hashes of the trimmed line, its uppercase form and
its lowercase form, all mapping to the original trimmed line. -/
def nameMapStep (md5 : Str → Bytes) (m : List (Bytes × Str)) (line : Str) :
    List (Bytes × Str) :=
  let trimmed := trimStr line
  if trimmed.isEmpty then m
  else
    let m := insertA m (calculate_md5 md5 trimmed) trimmed
    let m := insertA m (calculate_md5 md5 (upperStr trimmed)) trimmed
    insertA m (calculate_md5 md5 (lowerStr trimmed)) trimmed

/-- The filename map built from the extracted `FileList.xml` (lines
913-944): lossy-decode, split on `\n` or NUL, drop blank lines, then run the
per-line loop. -/
def buildNameMap (md5 : Str → Bytes) (filelist_data : Bytes) : List (Bytes × Str) :=
  let text := utf8Lossy filelist_data
  let lines := (splitOnPred (fun c => c = Char.ofNat 10 || c = Char.ofNat 0) text).filter
    (fun l => !(trimStr l).isEmpty)
  lines.foldl (nameMapStep md5) []

/-- `std::path::MAIN_SEPARATOR` of the modelled (Unix) host. -/
def mainSeparator : Char := '/'

/-- Output path of one entry: the mapped filename with separators replaced
and a leading separator stripped, or `_Unknowns/<hex>.bin` when the hash is
not in the map. -/
def entryOutPath (nameMap : List (Bytes × Str)) (hash : Bytes) : Str :=
  match lookupA nameMap hash with
  | some filename =>
    let fp := filename.map (fun c => if c = '/' then mainSeparator else c)
    if fp.head? = some mainSeparator then fp.drop 1 else fp
  | none =>
    ['_', 'U', 'n', 'k', 'n', 'o', 'w', 'n', 's'] ++ mainSeparator
      :: ((hash.map hexByteStr).flatten ++ ['.', 'b', 'i', 'n'])

/-- The per-entry extraction loop (lines 960-1032): skip the zero-hash
manifest entry and zero-offset entries; a failing `read_file_data` aborts
the whole extraction; a size mismatch is only logged. -/
def extractEntries (decompress : Bytes → Option Bytes) (b : Bytes) (zsizes : List Nat)
    (block_size : Nat) (nameMap : List (Bytes × Str)) :
    List Entry → Except ExtractErr (List (Str × Bytes))
  | [] => .ok []
  | e :: rest =>
    if e.name_hash = List.replicate 16 0 then
      extractEntries decompress b zsizes block_size nameMap rest
    else if e.offset = 0 then
      extractEntries decompress b zsizes block_size nameMap rest
    else
      match read_file_data decompress b e zsizes block_size with
      | .error err => .error err
      | .ok d =>
        match extractEntries decompress b zsizes block_size nameMap rest with
        | .error err => .error err
        | .ok r => .ok ((entryOutPath nameMap e.name_hash, d) :: r)

/-- Default used with `Option.getD` on cache lookups in statements. -/
instance : Inhabited CachedFileData := ⟨⟨[], [], 0⟩⟩

/-- `extract_psarc_internal` from `psarc.rs`: header validation, TOC and
ZSize parsing, manifest decoding into the filename map (failures tolerated),
then the per-entry loop. -/
def extract_psarc_internal (decompress : Bytes → Option Bytes) (md5 : Str → Bytes)
    (b : Bytes) : Except ExtractErr ExtractResult :=
  match readSlice b 0 4 with
  | none => .error .Eof
  | some magic =>
    if ¬ magic = psarMagic then .error .BadMagic
    else
      match readU16 b 4, readU16 b 6 with
      | some _major, some _minor =>
        match readSlice b 8 4 with
        | none => .error .Eof
        | some ctag =>
          if ¬ ctag = zlibTag then .error (.UnsupportedCompression ctag)
          else
            match readU32 b 12, readU32 b 16, readU32 b 20, readU32 b 24, readU32 b 28 with
            | some toc_length, some _entry_size, some file_count, some block_size, some _flags =>
              match parseEntries b 32 file_count with
              | none => .error .Eof
              | some entries =>
                let zsizes_start := 32 + 30 * file_count
                let zsizes_count := (toc_length - 32 - file_count * 30) / 2
                match parseZsizes b zsizes_start zsizes_count with
                | none => .error .InvalidData
                | some zsizes =>
                  let manifest : Option Bytes × List (Bytes × Str) :=
                    match entries.head? with
                    | some first_entry =>
                      if first_entry.name_hash = List.replicate 16 0 ∧ ¬ first_entry.offset = 0 then
                        match read_file_data decompress b first_entry zsizes block_size with
                        | .ok d => (some d, buildNameMap md5 d)
                        | .error _ => (none, [])
                      else (none, [])
                    | none => (none, [])
                  match extractEntries decompress b zsizes block_size manifest.2 entries with
                  | .error err => .error err
                  | .ok fs => .ok ⟨manifest.1, fs⟩
            | _, _, _, _, _ => .error .Eof
      | _, _ => .error .Eof

/-! ## Concrete instances used by the example theorems

Stand-ins for the external libraries with the properties the theorems
hypothesize: `stubMd5` is a 16-byte digest that never yields all zeros;
`stubCompressRaw` models zlib on incompressible input (a well-formed stream
header, output always longer, inverted by `stubInflateRaw`);
`stubCompressA` additionally shrinks the five-byte blob `manifestA` (zlib on
compressible input), inverted by `stubInflateA`. -/

def stubMd5 (s : Str) : Bytes := 1 :: (utf8EncodeStr s ++ List.replicate 15 0).take 15

def stubCompressRaw (b : Bytes) : Bytes := 120 :: 156 :: 0 :: b

def stubInflateRaw (s : Bytes) : Option Bytes := some (s.drop 3)

def manifestA : Bytes := [97, 46, 116, 120, 116]

def stubCompressA (b : Bytes) : Bytes := if b = manifestA then [120, 156] else 120 :: 156 :: 0 :: b

def stubInflateA (s : Bytes) : Option Bytes :=
  if s = [120, 156] then some manifestA else some (s.drop 3)

/-- A one-file directory: `{ "a.txt": "hello\n" }`. -/
def dirA : List (Str × Bytes) := [(['a', '.', 't', 'x', 't'], [104, 101, 108, 108, 111, 10])]

/-- A two-file directory for the incremental examples. -/
def dirB : List (Str × Bytes) :=
  [(['a', '.', 't', 'x', 't'], [104, 105, 10]), (['b', '.', 'b', 'i', 'n'], [1, 2, 3, 4])]

/-- A cache holding both `dirB` hashes (as loaded from a prior archive). -/
def cacheB : List (Bytes × CachedFileData) :=
  [(calculate_md5 stubMd5 ['a', '.', 't', 'x', 't'], ⟨[9, 9], [2], 3⟩),
   (calculate_md5 stubMd5 ['b', '.', 'b', 'i', 'n'], ⟨[8, 8, 8], [3], 4⟩)]

/-! ## Lemmas about chunking -/

theorem chunksOfAux_congr {α : Type} (n : Nat) (hn : 0 < n) :
    ∀ (fuel fuel' : Nat) (l : List α), l.length ≤ fuel → l.length ≤ fuel' →
      chunksOfAux n fuel l = chunksOfAux n fuel' l := by
  intro fuel
  induction fuel with
  | zero =>
    intro fuel' l hl _
    have : l = [] := List.eq_nil_of_length_eq_zero (Nat.le_zero.mp hl)
    subst this
    cases fuel' <;> rfl
  | succ f ih =>
    intro fuel' l hl hl'
    cases l with
    | nil => cases fuel' <;> rfl
    | cons x xs =>
      cases fuel' with
      | zero => simp at hl'
      | succ f' =>
        simp only [chunksOfAux]
        congr 1
        apply ih
        · simp only [List.length_drop, List.length_cons] at *
          omega
        · simp only [List.length_drop, List.length_cons] at *
          omega

theorem chunksOf_nil {α : Type} (n : Nat) : chunksOf n ([] : List α) = [] := rfl

theorem chunksOf_eq_cons {α : Type} (n : Nat) (hn : 0 < n) (l : List α) (hl : l ≠ []) :
    chunksOf n l = l.take n :: chunksOf n (l.drop n) := by
  obtain ⟨x, xs, rfl⟩ := List.exists_cons_of_ne_nil hl
  show chunksOfAux n (x :: xs).length (x :: xs) = _
  rw [List.length_cons]
  simp only [chunksOfAux]
  congr 1
  apply chunksOfAux_congr n hn
  · simp only [List.length_drop, List.length_cons]
    omega
  · exact Nat.le_refl _

theorem flatten_chunksOf_bounded {α : Type} (n : Nat) (hn : 0 < n) :
    ∀ (N : Nat) (l : List α), l.length ≤ N → (chunksOf n l).flatten = l := by
  intro N
  induction N with
  | zero =>
    intro l hl
    have : l = [] := List.eq_nil_of_length_eq_zero (Nat.le_zero.mp hl)
    subst this
    rfl
  | succ N ih =>
    intro l hl
    by_cases hne : l = []
    · subst hne; rfl
    · rw [chunksOf_eq_cons n hn l hne]
      rw [List.flatten_cons]
      rw [ih (l.drop n)]
      · exact List.take_append_drop n l
      · have h1 : 1 ≤ l.length := List.length_pos.mpr hne
        simp only [List.length_drop]
        omega

theorem flatten_chunksOf {α : Type} (n : Nat) (hn : 0 < n) (l : List α) :
    (chunksOf n l).flatten = l :=
  flatten_chunksOf_bounded n hn l.length l (Nat.le_refl _)

theorem mem_chunksOf_bounds {α : Type} (n : Nat) (hn : 0 < n) :
    ∀ (N : Nat) (l : List α) (ch : List α), l.length ≤ N → ch ∈ chunksOf n l →
      0 < ch.length ∧ ch.length ≤ n := by
  intro N
  induction N with
  | zero =>
    intro l ch hl hch
    have : l = [] := List.eq_nil_of_length_eq_zero (Nat.le_zero.mp hl)
    subst this
    simp [chunksOf_nil] at hch
  | succ N ih =>
    intro l ch hl hch
    by_cases hne : l = []
    · subst hne; simp [chunksOf_nil] at hch
    · rw [chunksOf_eq_cons n hn l hne] at hch
      rcases List.mem_cons.mp hch with h | h
      · subst h
        have h1 : 1 ≤ l.length := List.length_pos.mpr hne
        constructor
        · simp only [List.length_take]
          omega
        · simp only [List.length_take]
          omega
      · apply ih (l.drop n) ch _ h
        have h1 : 1 ≤ l.length := List.length_pos.mpr hne
        simp only [List.length_drop]
        omega

theorem mem_chunksOf_len {α : Type} (n : Nat) (hn : 0 < n) (l ch : List α)
    (hch : ch ∈ chunksOf n l) : 0 < ch.length ∧ ch.length ≤ n :=
  mem_chunksOf_bounds n hn l.length l ch (Nat.le_refl _) hch

/-! ## Lemmas about ASCII case folding -/

theorem asciiUpper_eq_of_not_lower (c : Char) (h : ¬ isAsciiLower c = true) : asciiUpper c = c := by
  simp [asciiUpper, h]

theorem charToNat_ofNat_valid (n : Nat) (h : n.isValidChar) : (Char.ofNat n).toNat = n := by
  rw [Char.ofNat, dif_pos h]
  rfl

theorem asciiUpper_asciiUpper (c : Char) : asciiUpper (asciiUpper c) = asciiUpper c := by
  by_cases h : isAsciiLower c = true
  · have hrange : 97 ≤ c.toNat ∧ c.toNat ≤ 122 := by
      simpa [isAsciiLower] using h
    have hval : (c.toNat - 32).isValidChar := Or.inl (by omega)
    have htn : (Char.ofNat (c.toNat - 32)).toNat = c.toNat - 32 := charToNat_ofNat_valid _ hval
    have h1 : asciiUpper c = Char.ofNat (c.toNat - 32) := by rw [asciiUpper, if_pos h]
    rw [h1]
    apply asciiUpper_eq_of_not_lower
    simp only [isAsciiLower, htn]
    intro hcon
    rw [Bool.and_eq_true, decide_eq_true_eq, decide_eq_true_eq] at hcon
    omega
  · have h1 : asciiUpper c = c := asciiUpper_eq_of_not_lower c h
    rw [h1]
    exact h1

theorem asciiUpper_asciiLower (c : Char) : asciiUpper (asciiLower c) = asciiUpper c := by
  by_cases h : isAsciiUpper c = true
  · have hrange : 65 ≤ c.toNat ∧ c.toNat ≤ 90 := by
      simpa [isAsciiUpper] using h
    have hval : (c.toNat + 32).isValidChar := Or.inl (by omega)
    have htn : (Char.ofNat (c.toNat + 32)).toNat = c.toNat + 32 := charToNat_ofNat_valid _ hval
    have hlow : isAsciiLower (Char.ofNat (c.toNat + 32)) = true := by
      simp only [isAsciiLower, htn]
      rw [Bool.and_eq_true, decide_eq_true_eq, decide_eq_true_eq]
      omega
    have hnl : ¬ isAsciiLower c = true := by
      simp only [isAsciiLower]
      intro hcon
      rw [Bool.and_eq_true, decide_eq_true_eq, decide_eq_true_eq] at hcon
      omega
    have h1 : asciiLower c = Char.ofNat (c.toNat + 32) := by rw [asciiLower, if_pos h]
    have h2 : asciiUpper (Char.ofNat (c.toNat + 32))
        = Char.ofNat ((Char.ofNat (c.toNat + 32)).toNat - 32) := by
      rw [asciiUpper, if_pos hlow]
    have h3 : asciiUpper c = c := asciiUpper_eq_of_not_lower c hnl
    rw [h1, h2, htn, h3]
    have h4 : c.toNat + 32 - 32 = c.toNat := by omega
    rw [h4, Char.ofNat_toNat]
  · have h1 : asciiLower c = c := by rw [asciiLower, if_neg h]
    rw [h1]

theorem upperStr_upperStr (s : Str) : upperStr (upperStr s) = upperStr s := by
  simp only [upperStr, List.map_map]
  apply List.map_congr_left
  intro c _
  exact asciiUpper_asciiUpper c

theorem upperStr_lowerStr (s : Str) : upperStr (lowerStr s) = upperStr s := by
  simp only [upperStr, lowerStr, List.map_map]
  apply List.map_congr_left
  intro c _
  exact asciiUpper_asciiLower c

theorem upperStr_eq_self_of_no_lower (p : Str)
    (h : p.all (fun c => !(isAsciiLower c)) = true) : upperStr p = p := by
  induction p with
  | nil => rfl
  | cons c cs ih =>
    simp only [List.all_cons, Bool.and_eq_true, Bool.not_eq_true'] at h
    simp only [upperStr, List.map_cons]
    rw [asciiUpper_eq_of_not_lower c (by simp [h.1])]
    rw [show List.map asciiUpper cs = upperStr cs from rfl, ih h.2]

/-! ## Unfolding equations for the block decisions -/

theorem processBlock_pos (compress : Bytes → Bytes) (ch : Bytes)
    (h : (compress ch).length < ch.length) :
    processBlock compress ch = (compress ch, (compress ch).length) := by
  simp only [processBlock]
  rw [if_pos h, if_neg (not_not_intro h)]

theorem processBlock_neg (compress : Bytes → Bytes) (ch : Bytes)
    (h : ¬ (compress ch).length < ch.length) :
    processBlock compress ch = (ch, if ch.length = BLOCK_SIZE then 0 else ch.length) := by
  simp only [processBlock]
  rw [if_neg h, if_pos h]

theorem processManifestBlock_pos (compress : Bytes → Bytes) (ch : Bytes)
    (h : (compress ch).length < ch.length) :
    processManifestBlock compress ch = (compress ch, (compress ch).length) := by
  simp only [processManifestBlock]
  rw [if_pos h, if_pos h]

theorem processManifestBlock_neg (compress : Bytes → Bytes) (ch : Bytes)
    (h : ¬ (compress ch).length < ch.length) :
    processManifestBlock compress ch = (ch, 0) := by
  simp only [processManifestBlock]
  rw [if_neg h, if_neg h]

/-! ## UTF-8 round-trip lemmas -/

theorem utf8DecodeStep_enc1 (n : Nat) (h : n < 128) (rest : Bytes) :
    utf8DecodeStep (n :: rest) = some (n, 1) := by
  simp only [utf8DecodeStep, if_pos h]

theorem utf8DecodeStep_enc2 (n : Nat) (h1 : 128 ≤ n) (h2 : n < 2048) (rest : Bytes) :
    utf8DecodeStep ((192 + n / 64) :: (128 + n % 64) :: rest) = some (n, 2) := by
  simp only [utf8DecodeStep]
  rw [if_neg (by omega), if_neg (by omega), if_pos (by omega), if_pos ?_]
  · simp only [Option.some.injEq, Prod.mk.injEq]
    exact ⟨by omega, trivial⟩
  · simp only [isCont, Bool.and_eq_true, decide_eq_true_eq]
    exact ⟨by omega, by omega⟩

theorem utf8DecodeStep_enc3 (n : Nat) (h1 : 2048 ≤ n) (h2 : n < 65536)
    (h3 : n < 55296 ∨ 57343 < n) (rest : Bytes) :
    utf8DecodeStep ((224 + n / 4096) :: (128 + n / 64 % 64) :: (128 + n % 64) :: rest)
      = some (n, 3) := by
  simp only [utf8DecodeStep]
  rw [if_neg (by omega), if_neg (by omega), if_neg (by omega), if_pos (by omega), if_pos ?_]
  · simp only [Option.some.injEq, Prod.mk.injEq]
    exact ⟨by omega, trivial⟩
  · simp only [isCont, Bool.and_eq_true, Bool.or_eq_true, decide_eq_true_eq]
    refine ⟨⟨⟨⟨by omega, by omega⟩, ⟨by omega, by omega⟩⟩, by omega⟩, by omega⟩

theorem utf8DecodeStep_enc4 (n : Nat) (h1 : 65536 ≤ n) (h2 : n < 1114112) (rest : Bytes) :
    utf8DecodeStep ((240 + n / 262144) :: (128 + n / 4096 % 64) :: (128 + n / 64 % 64)
        :: (128 + n % 64) :: rest)
      = some (n, 4) := by
  simp only [utf8DecodeStep]
  rw [if_neg (by omega), if_neg (by omega), if_neg (by omega), if_neg (by omega),
    if_pos (by omega), if_pos ?_]
  · simp only [Option.some.injEq, Prod.mk.injEq]
    exact ⟨by omega, trivial⟩
  · simp only [isCont, Bool.and_eq_true, Bool.or_eq_true, decide_eq_true_eq]
    refine ⟨⟨⟨⟨⟨by omega, by omega⟩, ⟨by omega, by omega⟩⟩, ⟨by omega, by omega⟩⟩, by omega⟩,
      by omega⟩

theorem char_toNat_valid (c : Char) : c.toNat < 55296 ∨ (57343 < c.toNat ∧ c.toNat < 1114112) :=
  c.valid

theorem utf8DecodeStep_encodeChar (c : Char) (rest : Bytes) :
    utf8DecodeStep (utf8EncodeChar c ++ rest) = some (c.toNat, (utf8EncodeChar c).length) := by
  have hval := char_toNat_valid c
  by_cases h1 : c.toNat < 128
  · rw [show utf8EncodeChar c = [c.toNat] by simp [utf8EncodeChar, utf8EncodeScalar, h1]]
    simpa using utf8DecodeStep_enc1 c.toNat h1 rest
  · by_cases h2 : c.toNat < 2048
    · rw [show utf8EncodeChar c = [192 + c.toNat / 64, 128 + c.toNat % 64] by
        simp [utf8EncodeChar, utf8EncodeScalar, h1, h2]]
      simpa using utf8DecodeStep_enc2 c.toNat (by omega) h2 rest
    · by_cases h3 : c.toNat < 65536
      · rw [show utf8EncodeChar c
            = [224 + c.toNat / 4096, 128 + c.toNat / 64 % 64, 128 + c.toNat % 64] by
          simp [utf8EncodeChar, utf8EncodeScalar, h1, h2, h3]]
        simpa using utf8DecodeStep_enc3 c.toNat (by omega) h3 (by omega) rest
      · rw [show utf8EncodeChar c
            = [240 + c.toNat / 262144, 128 + c.toNat / 4096 % 64, 128 + c.toNat / 64 % 64,
               128 + c.toNat % 64] by
          simp [utf8EncodeChar, utf8EncodeScalar, h1, h2, h3]]
        simpa using utf8DecodeStep_enc4 c.toNat (by omega) (by omega) rest

theorem utf8EncodeChar_ne_nil (c : Char) : utf8EncodeChar c ≠ [] := by
  simp only [utf8EncodeChar, utf8EncodeScalar]
  split
  · simp
  · split
    · simp
    · split
      · simp
      · simp

theorem utf8EncodeChar_length_pos (c : Char) : 0 < (utf8EncodeChar c).length :=
  List.length_pos.mpr (utf8EncodeChar_ne_nil c)

theorem utf8EncodeStr_cons (c : Char) (cs : Str) :
    utf8EncodeStr (c :: cs) = utf8EncodeChar c ++ utf8EncodeStr cs := by
  simp [utf8EncodeStr]

theorem length_le_utf8EncodeStr (s : Str) : s.length ≤ (utf8EncodeStr s).length := by
  induction s with
  | nil => simp [utf8EncodeStr]
  | cons c cs ih =>
    rw [utf8EncodeStr_cons, List.length_append, List.length_cons]
    have := utf8EncodeChar_length_pos c
    omega

theorem utf8DecodeAux_encode (s : Str) :
    ∀ fuel, s.length ≤ fuel → utf8DecodeAux fuel (utf8EncodeStr s) = some s := by
  induction s with
  | nil =>
    intro fuel _
    show utf8DecodeAux fuel [] = some []
    cases fuel <;> rfl
  | cons c cs ih =>
    intro fuel hf
    rw [List.length_cons] at hf
    obtain ⟨f, rfl⟩ : ∃ f, fuel = f + 1 := ⟨fuel - 1, by omega⟩
    obtain ⟨b0, btl, henc⟩ : ∃ b0 btl, utf8EncodeChar c = b0 :: btl := by
      cases hh : utf8EncodeChar c with
      | nil => exact absurd hh (utf8EncodeChar_ne_nil c)
      | cons x xs => exact ⟨x, xs, rfl⟩
    have hstep := utf8DecodeStep_encodeChar c (utf8EncodeStr cs)
    rw [utf8EncodeStr_cons, henc, List.cons_append] at *
    simp only [utf8DecodeAux, hstep]
    rw [← List.cons_append, ← henc, List.drop_left]
    rw [ih f (by omega)]
    simp [Char.ofNat_toNat]

theorem from_utf8_encode (s : Str) : from_utf8 (utf8EncodeStr s) = some s :=
  utf8DecodeAux_encode s (utf8EncodeStr s).length (length_le_utf8EncodeStr s)

theorem utf8LossyAux_encode (s : Str) :
    ∀ fuel, s.length ≤ fuel → utf8LossyAux fuel (utf8EncodeStr s) = s := by
  induction s with
  | nil =>
    intro fuel _
    show utf8LossyAux fuel [] = []
    cases fuel <;> rfl
  | cons c cs ih =>
    intro fuel hf
    rw [List.length_cons] at hf
    obtain ⟨f, rfl⟩ : ∃ f, fuel = f + 1 := ⟨fuel - 1, by omega⟩
    obtain ⟨b0, btl, henc⟩ : ∃ b0 btl, utf8EncodeChar c = b0 :: btl := by
      cases hh : utf8EncodeChar c with
      | nil => exact absurd hh (utf8EncodeChar_ne_nil c)
      | cons x xs => exact ⟨x, xs, rfl⟩
    have hstep := utf8DecodeStep_encodeChar c (utf8EncodeStr cs)
    rw [utf8EncodeStr_cons, henc, List.cons_append] at *
    simp only [utf8LossyAux, hstep]
    rw [← List.cons_append, ← henc, List.drop_left]
    rw [ih f (by omega)]
    simp [Char.ofNat_toNat]

theorem utf8Lossy_encode (s : Str) : utf8Lossy (utf8EncodeStr s) = s :=
  utf8LossyAux_encode s (utf8EncodeStr s).length (length_le_utf8EncodeStr s)

theorem calculate_md5_eq_upper (md5 : Str → Bytes) (p : Str) :
    calculate_md5 md5 p = md5 (upperStr p) := by
  unfold calculate_md5
  by_cases h : p.all (fun c => !(isAsciiLower c)) = true
  · rw [if_pos h, upperStr_eq_self_of_no_lower p h]
  · rw [if_neg h]

/-- C4: the name hash is the MD5 digest of the ASCII-uppercased path (the
no-allocation shortcut for paths without ASCII lowercase changes nothing),
and paths that differ only in ASCII letter case — i.e. whose ASCII-uppercase
foldings agree character by character — hash identically, for any digest
function `md5` (the external `md5` crate). -/
theorem claim_C4_path_hash (md5 : Str → Bytes) (p q : Str)
    (hpq : upperStr p = upperStr q) :
    calculate_md5 md5 p = md5 (upperStr p) ∧
    calculate_md5 md5 p = calculate_md5 md5 q := by
  refine ⟨calculate_md5_eq_upper md5 p, ?_⟩
  rw [calculate_md5_eq_upper md5 p, calculate_md5_eq_upper md5 q, hpq]

/-- Witness for C4 at the spec's own example, `hash("foo/BAR.ext") ==
hash("FOO/bar.ext")`, with the concrete digest `stubMd5`. -/
theorem claim_C4_path_hash_witness :
    upperStr ['f', 'o', 'o', '/', 'B', 'A', 'R', '.', 'e', 'x', 't']
        = upperStr ['F', 'O', 'O', '/', 'b', 'a', 'r', '.', 'e', 'x', 't'] ∧
    (calculate_md5 stubMd5 ['f', 'o', 'o', '/', 'B', 'A', 'R', '.', 'e', 'x', 't']
        = stubMd5 (upperStr ['f', 'o', 'o', '/', 'B', 'A', 'R', '.', 'e', 'x', 't']) ∧
     calculate_md5 stubMd5 ['f', 'o', 'o', '/', 'B', 'A', 'R', '.', 'e', 'x', 't']
        = calculate_md5 stubMd5 ['F', 'O', 'O', '/', 'b', 'a', 'r', '.', 'e', 'x', 't']) :=
  ⟨by decide, claim_C4_path_hash stubMd5 _ _ (by decide)⟩

/-- C9 (implicit): an on-disk manifest blob that is not valid UTF-8, or that
normalizes to zero non-empty lines, is silently ignored: the resolver
returns exactly what it returns with no manifest at all (the hash-sort
fallback), raising no error. -/
theorem claim_C9_invalid_manifest_ignored (md5 : Str → Bytes)
    (discovered : List (Str × Bytes)) (mb : Bytes)
    (h : from_utf8 mb = none ∨ ∃ t, from_utf8 mb = some t ∧ normalize_manifest_lines t = []) :
    resolve_file_order md5 discovered (some mb) = resolve_file_order md5 discovered none := by
  rcases h with h | ⟨t, ht, hnorm⟩
  · simp [resolve_file_order, h]
  · simp [resolve_file_order, ht, hnorm]

/-- Witness for C9: the single byte `0xFF` is not valid UTF-8. -/
theorem claim_C9_invalid_manifest_ignored_witness :
    (from_utf8 [255] = none ∨
      ∃ t, from_utf8 [255] = some t ∧ normalize_manifest_lines t = []) ∧
    resolve_file_order stubMd5 dirA (some [255]) = resolve_file_order stubMd5 dirA none :=
  ⟨Or.inl (by decide),
   claim_C9_invalid_manifest_ignored stubMd5 dirA [255] (Or.inl (by decide))⟩

/-- C3: for every block of a recompressed file (a `chunks(BLOCK_SIZE)` chunk
of its contents), if the zlib output is strictly shorter the compressed
bytes are stored with ZSize equal to the compressed length; otherwise the
original bytes are stored raw, with ZSize `0` exactly when the block is a
full 65536-byte block and the original length otherwise. -/
theorem claim_C3_block_storage (compress : Bytes → Bytes) (content ch : Bytes)
    (hch : ch ∈ chunksOf BLOCK_SIZE content) :
    ((compress ch).length < ch.length →
      (processBlock compress ch).1 = compress ch ∧
      (processBlock compress ch).2 = (compress ch).length) ∧
    (¬ (compress ch).length < ch.length →
      (processBlock compress ch).1 = ch ∧
      ((processBlock compress ch).2 = 0 ↔ ch.length = BLOCK_SIZE) ∧
      (¬ ch.length = BLOCK_SIZE → (processBlock compress ch).2 = ch.length)) := by
  have hb : 0 < ch.length ∧ ch.length ≤ BLOCK_SIZE :=
    mem_chunksOf_len BLOCK_SIZE (by norm_num [BLOCK_SIZE]) content ch hch
  constructor
  · intro hlt
    rw [processBlock_pos compress ch hlt]
    exact ⟨rfl, rfl⟩
  · intro hge
    rw [processBlock_neg compress ch hge]
    refine ⟨rfl, ?_, ?_⟩
    · by_cases hfull : ch.length = BLOCK_SIZE
      · simp [hfull]
      · simp only [if_neg hfull]
        constructor
        · intro h0
          omega
        · intro h
          exact absurd h hfull
    · intro hfull
      simp [hfull]

/-- Witness for C3 on a concrete one-block file under the incompressible
stub codec: the raw branch applies and ZSize is the partial length. -/
theorem claim_C3_block_storage_witness :
    [104, 101, 108, 108, 111, 10] ∈ chunksOf BLOCK_SIZE [104, 101, 108, 108, 111, 10] ∧
    (¬ (stubCompressRaw [104, 101, 108, 108, 111, 10]).length
        < ([104, 101, 108, 108, 111, 10] : Bytes).length →
      (processBlock stubCompressRaw [104, 101, 108, 108, 111, 10]).1
          = [104, 101, 108, 108, 111, 10] ∧
      ((processBlock stubCompressRaw [104, 101, 108, 108, 111, 10]).2 = 0 ↔
        ([104, 101, 108, 108, 111, 10] : Bytes).length = BLOCK_SIZE) ∧
      (¬ ([104, 101, 108, 108, 111, 10] : Bytes).length = BLOCK_SIZE →
        (processBlock stubCompressRaw [104, 101, 108, 108, 111, 10]).2
          = ([104, 101, 108, 108, 111, 10] : Bytes).length)) :=
  ⟨by decide,
   (claim_C3_block_storage stubCompressRaw [104, 101, 108, 108, 111, 10]
     [104, 101, 108, 108, 111, 10] (by decide)).2⟩

/-- C10 (implicit): every ZSize value the pack pipeline computes — in the
real-file block loop and in the manifest block loop — is strictly below
65536, so the `as u16` narrowing at serialization (the `% 2^16` inside
`be16`) never wraps: compressed blocks are only stored when strictly
smaller than the at-most-65536-byte original, raw partial blocks are
strictly shorter than a full block, and full raw blocks are recorded as 0. -/
theorem claim_C10_zsize_no_wrap (compress : Bytes → Bytes) :
    (∀ content z, z ∈ (processFileData compress content).2 → z < 65536) ∧
    (∀ m z, z ∈ (processManifestData compress m).2 → z < 65536) := by
  constructor
  · intro content z hz
    simp only [processFileData, List.mem_map] at hz
    obtain ⟨ch, hch, rfl⟩ := hz
    have hb : 0 < ch.length ∧ ch.length ≤ BLOCK_SIZE :=
      mem_chunksOf_len BLOCK_SIZE (by norm_num [BLOCK_SIZE]) content ch hch
    by_cases hlt : (compress ch).length < ch.length
    · rw [processBlock_pos compress ch hlt]
      simp only [BLOCK_SIZE] at hb
      omega
    · rw [processBlock_neg compress ch hlt]
      by_cases hfull : ch.length = BLOCK_SIZE
      · simp [hfull]
      · simp only [if_neg hfull]
        simp only [BLOCK_SIZE] at hb hfull
        omega
  · intro m z hz
    simp only [processManifestData, List.mem_map] at hz
    obtain ⟨ch, hch, rfl⟩ := hz
    have hb : 0 < ch.length ∧ ch.length ≤ BLOCK_SIZE :=
      mem_chunksOf_len BLOCK_SIZE (by norm_num [BLOCK_SIZE]) m ch hch
    by_cases hlt : (compress ch).length < ch.length
    · rw [processManifestBlock_pos compress ch hlt]
      simp only [BLOCK_SIZE] at hb
      omega
    · rw [processManifestBlock_neg compress ch hlt]
      norm_num

/-- Witness for C10 at a concrete file and manifest under the stub codec. -/
theorem claim_C10_zsize_no_wrap_witness :
    ((3 : Nat) ∈ (processFileData stubCompressRaw [7, 7, 7]).2 ∧ (3 : Nat) < 65536) ∧
    ((0 : Nat) ∈ (processManifestData stubCompressRaw manifestA).2 ∧ (0 : Nat) < 65536) :=
  ⟨⟨by decide, (claim_C10_zsize_no_wrap stubCompressRaw).1 [7, 7, 7] 3 (by decide)⟩,
   ⟨by decide, (claim_C10_zsize_no_wrap stubCompressRaw).2 manifestA 0 (by decide)⟩⟩

/-! ## Reader lemmas for the extract header -/

theorem readSlice_of_le (b : Bytes) (i n : Nat) (h : i + n ≤ b.length) :
    readSlice b i n = some ((b.drop i).take n) := by
  simp [readSlice, h]

theorem readU16_isSome (b : Bytes) (i : Nat) (h : i + 2 ≤ b.length) :
    readU16 b i = some (beNat ((b.drop i).take 2)) := by
  simp [readU16, readSlice_of_le b i 2 h]

/-- C8: on any input of at least four bytes whose first four bytes are not
`"PSAR"`, extraction fails with the bad-magic error; on any input of at
least twelve bytes with correct magic whose compression tag (bytes 8..12)
is not `"zlib"`, extraction fails with the unsupported-compression error
carrying that tag.  Both failures happen in the model before any TOC entry
is parsed and the result carries no extracted file. -/
theorem claim_C8_header_validation :
    (∀ (decompress : Bytes → Option Bytes) (md5 : Str → Bytes) (b : Bytes),
      4 ≤ b.length → ¬ b.take 4 = psarMagic →
      extract_psarc_internal decompress md5 b = .error .BadMagic) ∧
    (∀ (decompress : Bytes → Option Bytes) (md5 : Str → Bytes) (b : Bytes),
      12 ≤ b.length → b.take 4 = psarMagic → ¬ (b.drop 8).take 4 = zlibTag →
      extract_psarc_internal decompress md5 b = .error (.UnsupportedCompression ((b.drop 8).take 4))) := by
  constructor
  · intro decompress md5 b hlen hmagic
    have h4 : readSlice b 0 4 = some (b.take 4) := by
      rw [readSlice_of_le b 0 4 (by omega)]
      simp
    simp only [extract_psarc_internal, h4]
    rw [if_pos hmagic]
  · intro decompress md5 b hlen hmagic htag
    have h4 : readSlice b 0 4 = some (b.take 4) := by
      rw [readSlice_of_le b 0 4 (by omega)]
      simp
    have h16a : readU16 b 4 = some (beNat ((b.drop 4).take 2)) := readU16_isSome b 4 (by omega)
    have h16b : readU16 b 6 = some (beNat ((b.drop 6).take 2)) := readU16_isSome b 6 (by omega)
    have h8 : readSlice b 8 4 = some ((b.drop 8).take 4) := readSlice_of_le b 8 4 (by omega)
    simp only [extract_psarc_internal, h4, h16a, h16b, h8]
    rw [if_neg (not_not_intro hmagic), if_pos htag]

/-- Witness for C8 at two concrete twelve-byte inputs. -/
theorem claim_C8_header_validation_witness :
    (4 ≤ ([0, 0, 0, 0] : Bytes).length ∧ ¬ ([0, 0, 0, 0] : Bytes).take 4 = psarMagic ∧
      extract_psarc_internal stubInflateRaw stubMd5 [0, 0, 0, 0] = .error .BadMagic) ∧
    (12 ≤ ([80, 83, 65, 82, 0, 1, 0, 4, 108, 122, 109, 97] : Bytes).length ∧
      ([80, 83, 65, 82, 0, 1, 0, 4, 108, 122, 109, 97] : Bytes).take 4 = psarMagic ∧
      extract_psarc_internal stubInflateRaw stubMd5 [80, 83, 65, 82, 0, 1, 0, 4, 108, 122, 109, 97]
        = .error (.UnsupportedCompression
            ((([80, 83, 65, 82, 0, 1, 0, 4, 108, 122, 109, 97] : Bytes).drop 8).take 4))) :=
  ⟨⟨by decide, by decide,
    claim_C8_header_validation.1 stubInflateRaw stubMd5 [0, 0, 0, 0] (by decide) (by decide)⟩,
   ⟨by decide, by decide,
    claim_C8_header_validation.2 stubInflateRaw stubMd5 [80, 83, 65, 82, 0, 1, 0, 4, 108, 122, 109, 97]
      (by decide) (by decide) (by decide)⟩⟩

/-! ## Lemmas about the lexicographic hash order and the stable sort -/

theorem natCompare_swap (a b : Nat) : compare b a = (compare a b).swap := by
  rcases Nat.lt_trichotomy a b with h | h | h
  · rw [Nat.compare_eq_lt.mpr h, Nat.compare_eq_gt.mpr h]
    rfl
  · rw [h, Nat.compare_eq_eq.mpr rfl]
    rfl
  · rw [Nat.compare_eq_gt.mpr h, Nat.compare_eq_lt.mpr h]
    rfl

theorem cmpNatList_swap (a : List Nat) : ∀ b, cmpNatList b a = (cmpNatList a b).swap := by
  induction a with
  | nil =>
    intro b
    cases b <;> rfl
  | cons x xs ih =>
    intro b
    cases b with
    | nil => rfl
    | cons y ys =>
      simp only [cmpNatList, natCompare_swap x y]
      cases compare x y <;> simp [Ordering.swap, ih ys]

theorem cmpNatList_lt_trans :
    ∀ (a b c : List Nat), cmpNatList a b = .lt → cmpNatList b c = .lt → cmpNatList a c = .lt := by
  intro a
  induction a with
  | nil =>
    intro b c hab hbc
    cases b with
    | nil => simp [cmpNatList] at hab
    | cons y ys =>
      cases c with
      | nil => simp [cmpNatList] at hbc
      | cons z zs => rfl
  | cons x xs ih =>
    intro b c hab hbc
    cases b with
    | nil => simp [cmpNatList] at hab
    | cons y ys =>
      cases c with
      | nil => simp [cmpNatList] at hbc
      | cons z zs =>
        simp only [cmpNatList] at hab hbc ⊢
        cases hxy : compare x y with
        | eq =>
          rw [hxy] at hab
          have hxye : x = y := Nat.compare_eq_eq.mp hxy
          cases hyz : compare y z with
          | eq =>
            rw [hyz] at hbc
            have hyze : y = z := Nat.compare_eq_eq.mp hyz
            rw [Nat.compare_eq_eq.mpr (hxye.trans hyze)]
            exact ih ys zs hab hbc
          | lt =>
            rw [Nat.compare_eq_lt.mpr (hxye ▸ Nat.compare_eq_lt.mp hyz)]
          | gt =>
            rw [hyz] at hbc
            exact absurd hbc (by simp)
        | lt =>
          cases hyz : compare y z with
          | eq =>
            have hyze : y = z := Nat.compare_eq_eq.mp hyz
            rw [Nat.compare_eq_lt.mpr (hyze ▸ Nat.compare_eq_lt.mp hxy)]
          | lt =>
            rw [Nat.compare_eq_lt.mpr
              (Nat.lt_trans (Nat.compare_eq_lt.mp hxy) (Nat.compare_eq_lt.mp hyz))]
          | gt =>
            rw [hyz] at hbc
            exact absurd hbc (by simp)
        | gt =>
          rw [hxy] at hab
          exact absurd hab (by simp)

theorem cmpNatList_lt_asymm {a b : List Nat} (h : cmpNatList a b = .lt) :
    ¬ cmpNatList b a = .lt := by
  intro hba
  have h2 := cmpNatList_swap a b
  rw [h, hba] at h2
  simp [Ordering.swap] at h2

theorem insertByHash_perm (md5 : Str → Bytes) (x : Str × Bytes) (l : List (Str × Bytes)) :
    (insertByHash md5 x l).Perm (x :: l) := by
  induction l with
  | nil => exact List.Perm.refl _
  | cons y ys ih =>
    simp only [insertByHash]
    by_cases h : cmpNatList (calculate_md5 md5 x.1) (calculate_md5 md5 y.1) = .lt
    · rw [if_pos h]
    · rw [if_neg h]
      exact (ih.cons y).trans (List.Perm.swap x y ys)

theorem sortByHash_foldl_perm (md5 : Str → Bytes) :
    ∀ (l acc : List (Str × Bytes)),
      (List.foldl (fun acc x => insertByHash md5 x acc) acc l).Perm (acc ++ l) := by
  intro l
  induction l with
  | nil => intro acc; simp
  | cons x xs ih =>
    intro acc
    simp only [List.foldl_cons]
    refine (ih (insertByHash md5 x acc)).trans ?_
    refine (List.Perm.append_right xs (insertByHash_perm md5 x acc)).trans ?_
    rw [List.cons_append]
    exact List.perm_middle.symm

theorem sortByHash_perm (md5 : Str → Bytes) (l : List (Str × Bytes)) :
    (sortByHash md5 l).Perm l :=
  sortByHash_foldl_perm md5 l []

theorem insertByHash_pairwise (md5 : Str → Bytes) (x : Str × Bytes) (l : List (Str × Bytes))
    (hl : l.Pairwise (fun a b =>
      ¬ cmpNatList (calculate_md5 md5 b.1) (calculate_md5 md5 a.1) = .lt)) :
    (insertByHash md5 x l).Pairwise (fun a b =>
      ¬ cmpNatList (calculate_md5 md5 b.1) (calculate_md5 md5 a.1) = .lt) := by
  induction l with
  | nil => simp [insertByHash]
  | cons y ys ih =>
    rcases List.pairwise_cons.mp hl with ⟨hy, hys⟩
    simp only [insertByHash]
    by_cases h : cmpNatList (calculate_md5 md5 x.1) (calculate_md5 md5 y.1) = .lt
    · rw [if_pos h]
      refine List.pairwise_cons.mpr ⟨?_, hl⟩
      intro z hz
      rcases List.mem_cons.mp hz with rfl | hz
      · exact cmpNatList_lt_asymm h
      · intro hzx
        exact hy z hz (cmpNatList_lt_trans _ _ _ hzx h)
    · rw [if_neg h]
      refine List.pairwise_cons.mpr ⟨?_, ih hys⟩
      intro z hz
      have hz2 : z ∈ x :: ys := (insertByHash_perm md5 x ys).mem_iff.mp hz
      rcases List.mem_cons.mp hz2 with rfl | hz2
      · exact h
      · exact hy z hz2

theorem sortByHash_foldl_pairwise (md5 : Str → Bytes) :
    ∀ (l acc : List (Str × Bytes)),
      acc.Pairwise (fun a b =>
        ¬ cmpNatList (calculate_md5 md5 b.1) (calculate_md5 md5 a.1) = .lt) →
      (List.foldl (fun acc x => insertByHash md5 x acc) acc l).Pairwise (fun a b =>
        ¬ cmpNatList (calculate_md5 md5 b.1) (calculate_md5 md5 a.1) = .lt) := by
  intro l
  induction l with
  | nil => intro acc h; exact h
  | cons x xs ih =>
    intro acc h
    exact ih (insertByHash md5 x acc) (insertByHash_pairwise md5 x acc h)

theorem sortByHash_pairwise (md5 : Str → Bytes) (l : List (Str × Bytes)) :
    (sortByHash md5 l).Pairwise (fun a b =>
      ¬ cmpNatList (calculate_md5 md5 b.1) (calculate_md5 md5 a.1) = .lt) :=
  sortByHash_foldl_pairwise md5 l [] (by simp)

/-- C7: with no usable on-disk manifest, the resolver hash-sorts: it returns
a permutation of the discovered files that is ascending in the lexicographic
byte order of the MD5 of the (uppercased) internal paths — no later file's
hash is lexicographically below an earlier one's, equivalently no earlier
hash compares `gt` against a later one — and the generated manifest bytes
are the ordered internal paths joined by a newline with no trailing
newline. -/
theorem claim_C7_hash_sort_fallback (md5 : Str → Bytes) (discovered : List (Str × Bytes)) :
    resolve_file_order md5 discovered none
      = .ok (sortByHash md5 discovered,
             manifest_bytes_from_paths ((sortByHash md5 discovered).map (fun pc => pc.1))) ∧
    (sortByHash md5 discovered).Perm discovered ∧
    (sortByHash md5 discovered).Pairwise (fun a b =>
      ¬ cmpNatList (calculate_md5 md5 a.1) (calculate_md5 md5 b.1) = .gt) := by
  refine ⟨rfl, sortByHash_perm md5 discovered, ?_⟩
  refine (sortByHash_pairwise md5 discovered).imp ?_
  intro a b hab hgt
  apply hab
  have h2 := cmpNatList_swap (calculate_md5 md5 a.1) (calculate_md5 md5 b.1)
  rw [hgt] at h2
  exact h2

/-! ## Lemmas about the association-list map -/

theorem lookupA_cons_pos {κ α : Type} [DecidableEq κ] (kv : κ × α) (rest : List (κ × α))
    (k : κ) (h : kv.1 = k) : lookupA (kv :: rest) k = some kv.2 := by
  simp [lookupA, List.find?_cons_of_pos, h]

theorem lookupA_cons_neg {κ α : Type} [DecidableEq κ] (kv : κ × α) (rest : List (κ × α))
    (k : κ) (h : ¬ kv.1 = k) : lookupA (kv :: rest) k = lookupA rest k := by
  simp only [lookupA]
  rw [List.find?_cons_of_neg]
  simp [h]

theorem lookupA_eq_none_iff {κ α : Type} [DecidableEq κ] (m : List (κ × α)) (k : κ) :
    lookupA m k = none ↔ ∀ kv ∈ m, ¬ kv.1 = k := by
  simp [lookupA, List.find?_eq_none]

theorem lookupA_isSome_iff {κ α : Type} [DecidableEq κ] (m : List (κ × α)) (k : κ) :
    (lookupA m k).isSome ↔ k ∈ m.map Prod.fst := by
  induction m with
  | nil => simp [lookupA]
  | cons kv rest ih =>
    by_cases h : kv.1 = k
    · rw [lookupA_cons_pos kv rest k h]
      simp [h.symm]
    · rw [lookupA_cons_neg kv rest k h, List.map_cons, List.mem_cons, ih]
      constructor
      · exact Or.inr
      · rintro (hk | hk)
        · exact absurd hk.symm h
        · exact hk

theorem lookupA_mem_keys {κ α : Type} [DecidableEq κ] (m : List (κ × α)) (k : κ) (v : α)
    (h : lookupA m k = some v) : k ∈ m.map Prod.fst := by
  apply (lookupA_isSome_iff m k).mp
  rw [h]
  rfl

theorem mem_keys_removeA {κ α : Type} [DecidableEq κ] (m : List (κ × α)) (k k' : κ) :
    k' ∈ (removeA m k).map Prod.fst ↔ k' ∈ m.map Prod.fst ∧ ¬ k' = k := by
  simp only [removeA, List.mem_map, List.mem_filter, decide_eq_true_eq]
  constructor
  · rintro ⟨kv, ⟨hm, hne⟩, rfl⟩
    exact ⟨⟨kv, hm, rfl⟩, hne⟩
  · rintro ⟨⟨kv, hm, rfl⟩, hne⟩
    exact ⟨kv, ⟨hm, hne⟩, rfl⟩

theorem removeA_keys_nodup {κ α : Type} [DecidableEq κ] (m : List (κ × α)) (k : κ)
    (h : (m.map Prod.fst).Nodup) : ((removeA m k).map Prod.fst).Nodup :=
  h.sublist (List.Sublist.map Prod.fst (List.filter_sublist m))

theorem lookupA_removeA_none {κ α : Type} [DecidableEq κ] (m : List (κ × α)) (k k' : κ)
    (h : lookupA m k' = none) : lookupA (removeA m k) k' = none := by
  rw [lookupA_eq_none_iff] at h ⊢
  intro kv hkv
  exact h kv (List.mem_of_mem_filter hkv)

theorem removeA_eq_self_of_not_mem {κ α : Type} [DecidableEq κ] (m : List (κ × α)) (k : κ)
    (h : k ∉ m.map Prod.fst) : removeA m k = m := by
  apply List.filter_eq_self.mpr
  intro kv hkv
  simp only [decide_eq_true_eq]
  intro hk
  exact h (List.mem_map.mpr ⟨kv, hkv, hk⟩)

theorem perm_cons_removeA {κ α : Type} [DecidableEq κ] :
    ∀ (m : List (κ × α)) (k : κ) (v : α), (m.map Prod.fst).Nodup →
      lookupA m k = some v → m.Perm ((k, v) :: removeA m k) := by
  intro m
  induction m with
  | nil => intro k v _ h; simp [lookupA] at h
  | cons kv rest ih =>
    intro k v hnd h
    obtain ⟨k1, v1⟩ := kv
    rw [List.map_cons, List.nodup_cons] at hnd
    by_cases hhead : k1 = k
    · subst hhead
      rw [lookupA_cons_pos ⟨k1, v1⟩ rest k1 rfl] at h
      obtain rfl : v1 = v := Option.some_inj.mp h
      have hrem : removeA ((k1, v1) :: rest) k1 = removeA rest k1 := by
        simp [removeA, List.filter_cons]
      rw [hrem, removeA_eq_self_of_not_mem rest k1 hnd.1]
    · rw [lookupA_cons_neg ⟨k1, v1⟩ rest k hhead] at h
      have hrem : removeA ((k1, v1) :: rest) k = (k1, v1) :: removeA rest k := by
        simp [removeA, List.filter_cons, hhead]
      rw [hrem]
      exact ((ih k v hnd.2 h).cons (k1, v1)).trans (List.Perm.swap (k, v) (k1, v1) (removeA rest k))

/-! ## Lemmas about `buildPathMap` and the manifest matching loop -/

theorem mem_foldl_insertA {κ α : Type} [DecidableEq κ] :
    ∀ (d acc : List (κ × α)) (kv : κ × α),
      kv ∈ List.foldl (fun m pc => insertA m pc.1 pc.2) acc d → kv ∈ acc ∨ kv ∈ d := by
  intro d
  induction d with
  | nil => intro acc kv h; exact Or.inl h
  | cons pc rest ih =>
    intro acc kv h
    rcases ih (insertA acc pc.1 pc.2) kv h with h2 | h2
    · rcases List.mem_cons.mp h2 with h3 | h3
      · right
        rw [h3]
        exact List.mem_cons_self pc rest
      · exact Or.inl (List.mem_of_mem_filter h3)
    · exact Or.inr (List.mem_cons_of_mem pc h2)

theorem buildPathMap_lookup_none (d : List (Str × Bytes)) (p : Str)
    (h : ¬ p ∈ d.map (fun pc => pc.1)) : lookupA (buildPathMap d) p = none := by
  rw [lookupA_eq_none_iff]
  intro kv hkv hk
  rcases mem_foldl_insertA d [] kv hkv with h2 | h2
  · simp at h2
  · exact h (List.mem_map.mpr ⟨kv, h2, hk⟩)

theorem buildPathMap_foldl_eq (d : List (Str × Bytes)) :
    ∀ acc, (∀ pc ∈ d, pc.1 ∉ acc.map Prod.fst) → (d.map Prod.fst).Nodup →
      List.foldl (fun m pc => insertA m pc.1 pc.2) acc d = d.reverse ++ acc := by
  induction d with
  | nil => intro acc _ _; simp
  | cons pc rest ih =>
    intro acc hdisj hnd
    rw [List.map_cons, List.nodup_cons] at hnd
    simp only [List.foldl_cons]
    have hins : insertA acc pc.1 pc.2 = pc :: acc := by
      unfold insertA
      rw [removeA_eq_self_of_not_mem acc pc.1 (hdisj pc (List.mem_cons_self pc rest))]
    rw [hins, ih (pc :: acc) ?_ hnd.2]
    · rw [List.reverse_cons, List.append_assoc]
      rfl
    · intro qc hqc
      rw [List.map_cons, List.mem_cons]
      rintro (hq | hq)
      · exact hnd.1 (hq ▸ List.mem_map.mpr ⟨qc, hqc, rfl⟩)
      · exact hdisj qc (List.mem_cons_of_mem pc hqc) hq

theorem buildPathMap_eq_reverse (d : List (Str × Bytes))
    (hnd : (d.map Prod.fst).Nodup) : buildPathMap d = d.reverse := by
  unfold buildPathMap
  rw [buildPathMap_foldl_eq d [] (by simp) hnd]
  simp

theorem matchManifestPaths_missing_subset :
    ∀ (mp : List Str) (m : List (Str × Bytes)) (q : Str),
      q ∈ (matchManifestPaths m mp).2.1 → q ∈ mp := by
  intro mp
  induction mp with
  | nil => intro m q h; simp [matchManifestPaths] at h
  | cons p rest ih =>
    intro m q h
    simp only [matchManifestPaths] at h
    cases hl : lookupA m p with
    | some c =>
      rw [hl] at h
      exact List.mem_cons_of_mem p (ih (removeA m p) q h)
    | none =>
      rw [hl] at h
      rcases List.mem_cons.mp h with h2 | h2
      · rw [h2]
        exact List.mem_cons_self p rest
      · exact List.mem_cons_of_mem p (ih m q h2)

theorem matchManifestPaths_mem_missing :
    ∀ (mp : List Str) (m : List (Str × Bytes)) (p : Str),
      p ∈ mp → lookupA m p = none → p ∈ (matchManifestPaths m mp).2.1 := by
  intro mp
  induction mp with
  | nil => intro m p h _; simp at h
  | cons q rest ih =>
    intro m p hp hnone
    simp only [matchManifestPaths]
    by_cases hq : q = p
    · subst hq
      rw [hnone]
      exact List.mem_cons_self q _
    · have hp2 : p ∈ rest := by
        rcases List.mem_cons.mp hp with h2 | h2
        · exact absurd h2.symm hq
        · exact h2
      cases hl : lookupA m q with
      | some c => exact ih (removeA m q) p hp2 (lookupA_removeA_none m q p hnone)
      | none => exact List.mem_cons_of_mem q (ih m p hp2 hnone)

theorem matchManifestPaths_spec :
    ∀ (mp : List Str) (m : List (Str × Bytes)),
      mp.Nodup → (∀ p ∈ mp, p ∈ m.map Prod.fst) → (m.map Prod.fst).Nodup →
      (matchManifestPaths m mp).1.map Prod.fst = mp ∧
      (matchManifestPaths m mp).2.1 = [] ∧
      ((matchManifestPaths m mp).1 ++ (matchManifestPaths m mp).2.2).Perm m ∧
      (∀ k ∈ (matchManifestPaths m mp).2.2.map Prod.fst, ¬ k ∈ mp) := by
  intro mp
  induction mp with
  | nil =>
    intro m _ _ _
    refine ⟨rfl, rfl, List.Perm.refl m, ?_⟩
    intro k _ hk
    simp at hk
  | cons p rest ih =>
    intro m hnd hsub hmnd
    rw [List.nodup_cons] at hnd
    have hpm : p ∈ m.map Prod.fst := hsub p (List.mem_cons_self p rest)
    obtain ⟨c, hl⟩ : ∃ c, lookupA m p = some c := by
      have := (lookupA_isSome_iff m p).mpr hpm
      exact Option.isSome_iff_exists.mp this
    have ihr := ih (removeA m p) hnd.2 ?hsub2 (removeA_keys_nodup m p hmnd)
    case hsub2 =>
      intro q hq
      rw [mem_keys_removeA]
      refine ⟨hsub q (List.mem_cons_of_mem p hq), ?_⟩
      intro hqp
      exact hnd.1 (hqp ▸ hq)
    simp only [matchManifestPaths, hl]
    refine ⟨?_, ihr.2.1, ?_, ?_⟩
    · rw [List.map_cons, ihr.1]
    · rw [List.cons_append]
      exact (ihr.2.2.1.cons (p, c)).trans (perm_cons_removeA m p c hmnd hl).symm
    · intro k hk
      have hk2 := ihr.2.2.2 k hk
      have hk3 : k ∈ (removeA m p).map Prod.fst := by
        rcases List.mem_map.mp hk with ⟨kv, hkv, rfl⟩
        have : kv ∈ (matchManifestPaths (removeA m p) rest).1
            ++ (matchManifestPaths (removeA m p) rest).2.2 :=
          List.mem_append_right _ hkv
        exact List.mem_map.mpr ⟨kv, ihr.2.2.1.mem_iff.mp this, rfl⟩
      rw [mem_keys_removeA] at hk3
      intro hkmem
      rcases List.mem_cons.mp hkmem with h2 | h2
      · exact hk3.2 h2
      · exact hk2 h2

/-! ## Unfolding equations for the per-file processing -/

theorem processOneFile_hash (compress : Bytes → Bytes) (mode : PackingMode) (ms : List Str)
    (cache : List (Bytes × CachedFileData)) (k : Nat) (p : Str) (c : Bytes) (h : Bytes) :
    (processOneFile compress mode ms cache k p c h).entry.name_hash = h := by
  simp only [processOneFile]
  split
  · rfl
  · split
    · rfl
    · rfl

theorem processOneFile_reuse (compress : Bytes → Bytes) (ms : List Str)
    (cache : List (Bytes × CachedFileData)) (k : Nat) (p : Str) (c : Bytes) (h : Bytes)
    (cached : CachedFileData) (hms : ms.contains p = false) (hc : lookupA cache h = some cached) :
    processOneFile compress PackingMode.Incremental ms cache k p c h
      = ⟨k, cached.compressed_data, cached.zsizes, ⟨h, 0, cached.uncompressed_size, 0⟩⟩ := by
  unfold processOneFile
  have hsr : (decide (PackingMode.Incremental = PackingMode.Full) || ms.contains p
      || (lookupA cache h).isNone) = false := by
    rw [hms, hc]
    rfl
  rw [hsr]
  simp only [Bool.false_eq_true, if_false, hc]

theorem processOneFile_recompress (compress : Bytes → Bytes) (mode : PackingMode) (ms : List Str)
    (cache : List (Bytes × CachedFileData)) (k : Nat) (p : Str) (c : Bytes) (h : Bytes)
    (hsr : (decide (mode = PackingMode.Full) || ms.contains p
      || (lookupA cache h).isNone) = true) :
    processOneFile compress mode ms cache k p c h
      = ⟨k, (processFileData compress c).1, (processFileData compress c).2, ⟨h, 0, c.length, 0⟩⟩ := by
  unfold processOneFile
  rw [hsr]
  simp only [if_true]
  by_cases hz : c.length = 0
  · rw [if_pos hz]
    have hc : c = [] := List.eq_nil_of_length_eq_zero hz
    subst hc
    rfl
  · rw [if_neg hz]

theorem processOneFile_full (compress : Bytes → Bytes) (ms : List Str)
    (cache : List (Bytes × CachedFileData)) (k : Nat) (p : Str) (c : Bytes) (h : Bytes) :
    processOneFile compress PackingMode.Full ms cache k p c h
      = ⟨k, (processFileData compress c).1, (processFileData compress c).2, ⟨h, 0, c.length, 0⟩⟩ :=
  processOneFile_recompress compress PackingMode.Full ms cache k p c h (by simp)

theorem writeProcessed_hashes (compress : Bytes → Bytes) (md5 : Str → Bytes)
    (mode : PackingMode) (ms : List Str) (cache : List (Bytes × CachedFileData)) :
    ∀ (files : List (Str × Bytes)) (k zlen off : Nat),
      ((writeProcessedAux mode ms cache
          (files.zip (processFilesFrom compress md5 mode ms cache k files)) zlen off).1).map
        (fun e => e.name_hash)
        = files.map (fun pc => calculate_md5 md5 pc.1) := by
  intro files
  induction files with
  | nil => intro k zlen off; rfl
  | cons pc rest ih =>
    intro k zlen off
    simp only [processFilesFrom, List.zip_cons_cons, writeProcessedAux, List.map_cons]
    rw [processOneFile_hash]
    exact congrArg (fun l => calculate_md5 md5 pc.1 :: l) (ih (k + 1) _ _)

/-- C6: when the parsed, non-empty on-disk manifest names a path matching no
discovered file, the pack pipeline fails with `ManifestReferenceMissing`
whose payload contains that path (and only parsed manifest paths), and the
pack returns no archive bytes — in the source, `File::create(output_path)`
only happens in Phase 3, after `resolve_file_order` has returned. -/
theorem claim_C6_missing_manifest_aborts (compress : Bytes → Bytes) (md5 : Str → Bytes)
    (mode : PackingMode) (modified : List Str) (cache : List (Bytes × CachedFileData))
    (dir : List (Str × Bytes)) (mb : Bytes) (t : Str) (p : Str)
    (hscan : (scanDir dir).2 = some mb)
    (hdec : from_utf8 mb = some t)
    (hne : ¬ normalize_manifest_lines t = [])
    (hp : p ∈ normalize_manifest_lines t)
    (hmiss : ¬ p ∈ (scanDir dir).1.map (fun pc => pc.1)) :
    ∃ missing, pack_directory_internal compress md5 mode modified cache dir
        = .error (.ManifestReferenceMissing missing)
      ∧ p ∈ missing ∧ ∀ q ∈ missing, q ∈ normalize_manifest_lines t := by
  have hlook : lookupA (buildPathMap (scanDir dir).1) p = none :=
    buildPathMap_lookup_none (scanDir dir).1 p hmiss
  have hpmiss : p ∈ (matchManifestPaths (buildPathMap (scanDir dir).1)
      (normalize_manifest_lines t)).2.1 :=
    matchManifestPaths_mem_missing (normalize_manifest_lines t) _ p hp hlook
  have hne2 : ¬ (matchManifestPaths (buildPathMap (scanDir dir).1)
      (normalize_manifest_lines t)).2.1 = [] :=
    List.ne_nil_of_mem hpmiss
  have hres : resolve_file_order md5 (scanDir dir).1 (scanDir dir).2
      = .error (.ManifestReferenceMissing ((matchManifestPaths
          (buildPathMap (scanDir dir).1) (normalize_manifest_lines t)).2.1)) := by
    rw [hscan]
    simp only [resolve_file_order, hdec]
    rw [if_neg hne, if_neg (by intro hcon; exact hne2 hcon.1), if_pos hne2]
  refine ⟨_, ?_, hpmiss, fun q hq => matchManifestPaths_missing_subset _ _ q hq⟩
  simp only [pack_directory_internal, packCore, hres]
  rfl

/-- Witness for C6: a one-line manifest naming `b.txt`, which `dirA` does
not contain. -/
theorem claim_C6_missing_manifest_aborts_witness :
    (scanDir (dirA ++ [(['F', 'i', 'l', 'e', 'L', 'i', 's', 't', '.', 'x', 'm', 'l'],
        [98, 46, 116, 120, 116])])).2 = some [98, 46, 116, 120, 116] ∧
    from_utf8 [98, 46, 116, 120, 116] = some ['b', '.', 't', 'x', 't'] ∧
    (∃ missing, pack_directory_internal stubCompressRaw stubMd5 PackingMode.Full [] []
        (dirA ++ [(['F', 'i', 'l', 'e', 'L', 'i', 's', 't', '.', 'x', 'm', 'l'],
          [98, 46, 116, 120, 116])])
        = .error (.ManifestReferenceMissing missing)
      ∧ ['b', '.', 't', 'x', 't'] ∈ missing
      ∧ ∀ q ∈ missing, q ∈ normalize_manifest_lines ['b', '.', 't', 'x', 't']) := by
  refine ⟨by decide, by decide, ?_⟩
  have h := claim_C6_missing_manifest_aborts stubCompressRaw stubMd5 PackingMode.Full [] []
    (dirA ++ [(['F', 'i', 'l', 'e', 'L', 'i', 's', 't', '.', 'x', 'm', 'l'],
      [98, 46, 116, 120, 116])])
    [98, 46, 116, 120, 116] ['b', '.', 't', 'x', 't'] ['b', '.', 't', 'x', 't']
    (by decide) (by decide) (by decide) (by decide) (by decide)
  exact h

/-- Behaviour of the processing and write loops in incremental mode: files
satisfying the reuse condition contribute their cached bytes and ZSize run
verbatim and are counted as reused; all others are recompressed from their
contents and counted as recompressed. -/
theorem writeProcessed_incremental (compress : Bytes → Bytes) (md5 : Str → Bytes)
    (modified : List Str) (cache : List (Bytes × CachedFileData)) :
    ∀ (files : List (Str × Bytes)) (k zlen off : Nat),
      (writeProcessedAux PackingMode.Incremental (normalizeModified modified) cache
          (files.zip (processFilesFrom compress md5 PackingMode.Incremental
            (normalizeModified modified) cache k files)) zlen off).2.1
        = (files.map (fun pc => if reuseCond md5 modified cache pc
            then ((lookupA cache (calculate_md5 md5 pc.1)).getD default).zsizes
            else (processFileData compress pc.2).2)).flatten ∧
      (writeProcessedAux PackingMode.Incremental (normalizeModified modified) cache
          (files.zip (processFilesFrom compress md5 PackingMode.Incremental
            (normalizeModified modified) cache k files)) zlen off).2.2.1
        = (files.map (fun pc => if reuseCond md5 modified cache pc
            then ((lookupA cache (calculate_md5 md5 pc.1)).getD default).compressed_data
            else (processFileData compress pc.2).1)).flatten ∧
      (writeProcessedAux PackingMode.Incremental (normalizeModified modified) cache
          (files.zip (processFilesFrom compress md5 PackingMode.Incremental
            (normalizeModified modified) cache k files)) zlen off).2.2.2.1
        = (files.filter (fun pc => !(decide (reuseCond md5 modified cache pc)))).length ∧
      (writeProcessedAux PackingMode.Incremental (normalizeModified modified) cache
          (files.zip (processFilesFrom compress md5 PackingMode.Incremental
            (normalizeModified modified) cache k files)) zlen off).2.2.2.2
        = (files.filter (fun pc => decide (reuseCond md5 modified cache pc))).length := by
  intro files
  induction files with
  | nil => intro k zlen off; exact ⟨rfl, rfl, rfl, rfl⟩
  | cons pc rest ih =>
    intro k zlen off
    simp only [processFilesFrom, List.zip_cons_cons]
    by_cases hcond : reuseCond md5 modified cache pc
    · obtain ⟨cached, hc⟩ := Option.isSome_iff_exists.mp hcond.2
      rw [processOneFile_reuse compress (normalizeModified modified) cache k pc.1 pc.2
        (calculate_md5 md5 pc.1) cached hcond.1 hc]
      obtain ⟨ih1, ih2, ih3, ih4⟩ := ih (k + 1) (zlen + cached.zsizes.length)
        (off + cached.compressed_data.length)
      simp only [writeProcessedAux, hcond.1, hc, Option.isSome_some, Option.getD_some,
        decide_True, Bool.not_false, Bool.and_true, Bool.true_and, List.map_cons,
        List.flatten_cons, List.filter_cons, decide_eq_true hcond, Bool.not_true,
        Bool.false_eq_true, if_true, if_false, List.length_cons, if_pos hcond]
      exact ⟨by rw [ih1], by rw [ih2], ih3, by rw [ih4]⟩
    · have hsr : (decide (PackingMode.Incremental = PackingMode.Full)
          || (normalizeModified modified).contains pc.1
          || (lookupA cache (calculate_md5 md5 pc.1)).isNone) = true := by
        rw [reuseCond, not_and_or] at hcond
        rcases hcond with h | h
        · have : (normalizeModified modified).contains pc.1 = true := by
            cases hx : (normalizeModified modified).contains pc.1
            · exact absurd hx h
            · rfl
          rw [this]
          rfl
        · have : (lookupA cache (calculate_md5 md5 pc.1)).isNone = true := by
            cases hx : lookupA cache (calculate_md5 md5 pc.1)
            · rfl
            · exact absurd (by rw [hx]; rfl) h
          rw [this]
          simp
      rw [processOneFile_recompress compress PackingMode.Incremental (normalizeModified modified)
        cache k pc.1 pc.2 (calculate_md5 md5 pc.1) hsr]
      obtain ⟨ih1, ih2, ih3, ih4⟩ := ih (k + 1) (zlen + (processFileData compress pc.2).2.length)
        (off + (processFileData compress pc.2).1.length)
      have hwr : (!((normalizeModified modified).contains pc.1)
          && (lookupA cache (calculate_md5 md5 pc.1)).isSome) = false := by
        rw [reuseCond, not_and_or] at hcond
        rcases hcond with h | h
        · have hcv : (normalizeModified modified).contains pc.1 = true := by
            cases hx : (normalizeModified modified).contains pc.1
            · exact absurd hx h
            · rfl
          rw [hcv]
          rfl
        · have hcv : (lookupA cache (calculate_md5 md5 pc.1)).isSome = false := by
            cases hx : lookupA cache (calculate_md5 md5 pc.1)
            · rfl
            · exact absurd (by rw [hx]; rfl) h
          rw [hcv]
          simp
      simp only [writeProcessedAux, decide_True, Bool.true_and, hwr, List.map_cons,
        List.flatten_cons, List.filter_cons, decide_eq_false hcond, Bool.not_false,
        Bool.false_eq_true, if_true, if_false, List.length_cons, if_neg hcond]
      exact ⟨by rw [ih1], by rw [ih2], by rw [ih3], ih4⟩

/-- C2: in an incremental pack with a loaded cache, exactly the real files
whose (normalized) internal path is outside the modified set and whose name
hash is in the cache are emitted with the cached raw compressed bytes and
cached ZSize run verbatim and counted as reused; every other real file is
recompressed from its contents and counted as recompressed.  The manifest
(entry 0) is always recompressed and is counted in neither statistic. -/
theorem claim_C2_incremental_reuse (compress : Bytes → Bytes) (md5 : Str → Bytes)
    (modified : List Str) (cache : List (Bytes × CachedFileData)) (dir : List (Str × Bytes))
    (files : List (Str × Bytes)) (M : Bytes)
    (hres : resolve_file_order md5 (scanDir dir).1 (scanDir dir).2 = .ok (files, M)) :
    ∃ o, packCore compress md5 PackingMode.Incremental modified cache dir = .ok o ∧
      o.reused = (files.filter (fun pc => decide (reuseCond md5 modified cache pc))).length ∧
      o.recompressed
        = (files.filter (fun pc => !(decide (reuseCond md5 modified cache pc)))).length ∧
      o.data = (processManifestData compress M).1
        ++ (files.map (fun pc => if reuseCond md5 modified cache pc
            then ((lookupA cache (calculate_md5 md5 pc.1)).getD default).compressed_data
            else (processFileData compress pc.2).1)).flatten ∧
      o.zsizes = (processManifestData compress M).2
        ++ (files.map (fun pc => if reuseCond md5 modified cache pc
            then ((lookupA cache (calculate_md5 md5 pc.1)).getD default).zsizes
            else (processFileData compress pc.2).2)).flatten := by
  obtain ⟨h1, h2, h3, h4⟩ := writeProcessed_incremental compress md5 modified cache files 0
    (processManifestData compress M).2.length (processManifestData compress M).1.length
  simp only [packCore, hres]
  exact ⟨_, rfl, h4, h3, by rw [h2], by rw [h1]⟩

/-- Witness for C2 at `dirB` with `a.txt` modified and both hashes cached:
one file reused (`2 − 1`), one recompressed. -/
theorem claim_C2_incremental_reuse_witness :
    resolve_file_order stubMd5 (scanDir dirB).1 (scanDir dirB).2
      = .ok (dirB, [97, 46, 116, 120, 116, 10, 98, 46, 98, 105, 110]) ∧
    (dirB.filter (fun pc => decide (reuseCond stubMd5 [['a', '.', 't', 'x', 't']] cacheB pc))).length
      = dirB.length - 1 ∧
    (∃ o, packCore stubCompressRaw stubMd5 PackingMode.Incremental [['a', '.', 't', 'x', 't']]
        cacheB dirB = .ok o ∧
      o.reused = (dirB.filter
        (fun pc => decide (reuseCond stubMd5 [['a', '.', 't', 'x', 't']] cacheB pc))).length ∧
      o.recompressed = (dirB.filter
        (fun pc => !(decide (reuseCond stubMd5 [['a', '.', 't', 'x', 't']] cacheB pc)))).length ∧
      o.data = (processManifestData stubCompressRaw
          [97, 46, 116, 120, 116, 10, 98, 46, 98, 105, 110]).1
        ++ (dirB.map (fun pc => if reuseCond stubMd5 [['a', '.', 't', 'x', 't']] cacheB pc
            then ((lookupA cacheB (calculate_md5 stubMd5 pc.1)).getD default).compressed_data
            else (processFileData stubCompressRaw pc.2).1)).flatten ∧
      o.zsizes = (processManifestData stubCompressRaw
          [97, 46, 116, 120, 116, 10, 98, 46, 98, 105, 110]).2
        ++ (dirB.map (fun pc => if reuseCond stubMd5 [['a', '.', 't', 'x', 't']] cacheB pc
            then ((lookupA cacheB (calculate_md5 stubMd5 pc.1)).getD default).zsizes
            else (processFileData stubCompressRaw pc.2).2)).flatten) :=
  ⟨by decide, by decide,
   claim_C2_incremental_reuse stubCompressRaw stubMd5 [['a', '.', 't', 'x', 't']] cacheB dirB
     dirB [97, 46, 116, 120, 116, 10, 98, 46, 98, 105, 110] (by decide)⟩

/-- C5: when the on-disk manifest parses to a non-empty duplicate-free line
list in which every line matches a discovered file and every discovered file
is referenced, the resolver returns the files in exactly the manifest's
order with the normalized manifest bytes (newline-joined, no trailing
newline), and consequently the pack pipeline's TOC entries after entry 0
carry the name hashes in manifest order. -/
theorem claim_C5_manifest_order_adopted (md5 : Str → Bytes) (discovered : List (Str × Bytes))
    (mb : Bytes) (t : Str)
    (hdec : from_utf8 mb = some t)
    (hnodup_m : (normalize_manifest_lines t).Nodup)
    (hne : ¬ normalize_manifest_lines t = [])
    (hdnodup : (discovered.map Prod.fst).Nodup)
    (hsub : ∀ p ∈ normalize_manifest_lines t, p ∈ discovered.map Prod.fst)
    (hsup : ∀ q ∈ discovered.map Prod.fst, q ∈ normalize_manifest_lines t) :
    ∃ ordered,
      resolve_file_order md5 discovered (some mb)
        = .ok (ordered, manifest_bytes_from_paths (normalize_manifest_lines t)) ∧
      ordered.map Prod.fst = normalize_manifest_lines t ∧
      ordered.Perm discovered ∧
      ∀ (compress : Bytes → Bytes) (mode : PackingMode) (modified : List Str)
        (cache : List (Bytes × CachedFileData)) (dir : List (Str × Bytes)),
        scanDir dir = (discovered, some mb) →
        ∃ o, packCore compress md5 mode modified cache dir = .ok o ∧
          o.entries.map (fun e => e.name_hash)
            = List.replicate 16 0 :: (normalize_manifest_lines t).map (calculate_md5 md5) := by
  have hbm : buildPathMap discovered = discovered.reverse := buildPathMap_eq_reverse discovered hdnodup
  have hkeys : (buildPathMap discovered).map Prod.fst = (discovered.map Prod.fst).reverse := by
    rw [hbm, List.map_reverse]
  have hknd : ((buildPathMap discovered).map Prod.fst).Nodup := by
    rw [hkeys]
    exact List.nodup_reverse.mpr hdnodup
  have hksub : ∀ p ∈ normalize_manifest_lines t, p ∈ (buildPathMap discovered).map Prod.fst := by
    intro p hp
    rw [hkeys, List.mem_reverse]
    exact hsub p hp
  have spec := matchManifestPaths_spec (normalize_manifest_lines t) (buildPathMap discovered)
    hnodup_m hksub hknd
  have hmap_nil : (matchManifestPaths (buildPathMap discovered)
      (normalize_manifest_lines t)).2.2 = [] := by
    rw [List.eq_nil_iff_forall_not_mem]
    intro kv hkv
    have hkmem : kv.1 ∈ (matchManifestPaths (buildPathMap discovered)
        (normalize_manifest_lines t)).2.2.map Prod.fst := List.mem_map.mpr ⟨kv, hkv, rfl⟩
    apply spec.2.2.2 kv.1 hkmem
    apply hsup
    have hkv2 : kv ∈ buildPathMap discovered :=
      spec.2.2.1.mem_iff.mp (List.mem_append_right _ hkv)
    have : kv.1 ∈ (buildPathMap discovered).map Prod.fst := List.mem_map.mpr ⟨kv, hkv2, rfl⟩
    rw [hkeys, List.mem_reverse] at this
    exact this
  have hres : resolve_file_order md5 discovered (some mb)
      = .ok ((matchManifestPaths (buildPathMap discovered) (normalize_manifest_lines t)).1,
             manifest_bytes_from_paths (normalize_manifest_lines t)) := by
    simp only [resolve_file_order, hdec]
    rw [if_neg hne, if_pos ⟨spec.2.1, hmap_nil⟩]
  refine ⟨_, hres, spec.1, ?_, ?_⟩
  · have h1 := spec.2.2.1
    rw [hmap_nil, List.append_nil] at h1
    refine h1.trans ?_
    rw [hbm]
    exact List.reverse_perm discovered
  · intro compress mode modified cache dir hscan
    simp only [packCore, hscan, hres]
    refine ⟨_, rfl, ?_⟩
    simp only [List.map_cons]
    congr 1
    rw [writeProcessed_hashes]
    conv_rhs => rw [← spec.1]
    rw [List.map_map]
    rfl

/-- Witness for C5: `dirB` plus a manifest listing `b.bin` before `a.txt`
(the opposite of what their layout order is). -/
theorem claim_C5_manifest_order_adopted_witness :
    from_utf8 [98, 46, 98, 105, 110, 10, 97, 46, 116, 120, 116]
      = some ['b', '.', 'b', 'i', 'n', Char.ofNat 10, 'a', '.', 't', 'x', 't'] ∧
    (∃ ordered,
      resolve_file_order stubMd5 dirB (some [98, 46, 98, 105, 110, 10, 97, 46, 116, 120, 116])
        = .ok (ordered, manifest_bytes_from_paths (normalize_manifest_lines
            ['b', '.', 'b', 'i', 'n', Char.ofNat 10, 'a', '.', 't', 'x', 't'])) ∧
      ordered.map Prod.fst = normalize_manifest_lines
        ['b', '.', 'b', 'i', 'n', Char.ofNat 10, 'a', '.', 't', 'x', 't'] ∧
      ordered.Perm dirB ∧
      ∀ (compress : Bytes → Bytes) (mode : PackingMode) (modified : List Str)
        (cache : List (Bytes × CachedFileData)) (dir : List (Str × Bytes)),
        scanDir dir = (dirB, some [98, 46, 98, 105, 110, 10, 97, 46, 116, 120, 116]) →
        ∃ o, packCore compress stubMd5 mode modified cache dir = .ok o ∧
          o.entries.map (fun e => e.name_hash)
            = List.replicate 16 0 :: (normalize_manifest_lines
                ['b', '.', 'b', 'i', 'n', Char.ofNat 10, 'a', '.', 't', 'x', 't']).map
                  (calculate_md5 stubMd5)) :=
  ⟨by decide,
   claim_C5_manifest_order_adopted stubMd5 dirB [98, 46, 98, 105, 110, 10, 97, 46, 116, 120, 116]
     ['b', '.', 'b', 'i', 'n', Char.ofNat 10, 'a', '.', 't', 'x', 't']
     (by decide) (by decide) (by decide) (by decide) (by decide) (by decide)⟩

/-! ## Splitting the joined manifest back into its lines -/

theorem splitOnPred_ne_nil (sep : Char → Bool) (s : Str) : splitOnPred sep s ≠ [] := by
  cases s with
  | nil => simp [splitOnPred]
  | cons c rest =>
    simp only [splitOnPred]
    cases splitOnPred sep rest with
    | nil => simp
    | cons h t =>
      by_cases hc : sep c = true
      · simp [hc]
      · simp [hc]

theorem splitOnPred_no_sep (sep : Char → Bool) (s : Str)
    (h : ∀ c ∈ s, sep c = false) : splitOnPred sep s = [s] := by
  induction s with
  | nil => rfl
  | cons c rest ih =>
    have hrest : splitOnPred sep rest = [rest] := ih (fun c hc => h c (List.mem_cons_of_mem _ hc))
    simp only [splitOnPred, hrest]
    rw [if_neg (by rw [h c (List.mem_cons_self c rest)]; simp)]

theorem splitOnPred_append_sep (sep : Char → Bool) (p : Str) (c0 : Char) (t : Str)
    (hp : ∀ c ∈ p, sep c = false) (hc : sep c0 = true) :
    splitOnPred sep (p ++ c0 :: t) = p :: splitOnPred sep t := by
  induction p with
  | nil =>
    simp only [List.nil_append, splitOnPred]
    cases hsp : splitOnPred sep t with
    | nil => exact absurd hsp (splitOnPred_ne_nil sep t)
    | cons h t' => simp [hc]
  | cons c p' ih =>
    have hrest : splitOnPred sep (p' ++ c0 :: t) = p' :: splitOnPred sep t :=
      ih (fun c hc2 => hp c (List.mem_cons_of_mem _ hc2))
    rw [List.cons_append]
    simp only [splitOnPred, hrest]
    rw [if_neg (by rw [hp c (List.mem_cons_self c p')]; simp)]

theorem splitOnPred_joinNL (sep : Char → Bool) (paths : List Str)
    (hne : paths ≠ [])
    (hsep : ∀ p ∈ paths, ∀ c ∈ p, sep c = false)
    (hnl : sep '\n' = true) :
    splitOnPred sep (joinNL paths) = paths := by
  induction paths with
  | nil => exact absurd rfl hne
  | cons p rest ih =>
    cases rest with
    | nil =>
      show splitOnPred sep p = [p]
      exact splitOnPred_no_sep sep p (hsep p (List.mem_cons_self p []))
    | cons q rest' =>
      show splitOnPred sep (p ++ '\n' :: joinNL (q :: rest')) = p :: (q :: rest')
      rw [splitOnPred_append_sep sep p '\n' (joinNL (q :: rest'))
        (hsep p (List.mem_cons_self p _)) hnl]
      rw [ih (by simp) (fun r hr c hc => hsep r (List.mem_cons_of_mem p hr) c hc)]

/-! ## Lookup behaviour of `insertA` and the filename map -/

theorem lookupA_removeA_other {κ α : Type} [DecidableEq κ] (m : List (κ × α)) (k k' : κ)
    (h : ¬ k' = k) : lookupA (removeA m k) k' = lookupA m k' := by
  induction m with
  | nil => rfl
  | cons kv rest ih =>
    by_cases hk : kv.1 = k
    · have : removeA (kv :: rest) k = removeA rest k := by
        simp [removeA, List.filter_cons, hk]
      rw [this, ih, lookupA_cons_neg kv rest k' (by rw [hk]; exact fun hc => h hc.symm)]
    · have : removeA (kv :: rest) k = kv :: removeA rest k := by
        simp [removeA, List.filter_cons, hk]
      rw [this]
      by_cases hk' : kv.1 = k'
      · rw [lookupA_cons_pos _ _ _ hk', lookupA_cons_pos _ _ _ hk']
      · rw [lookupA_cons_neg _ _ _ hk', lookupA_cons_neg _ _ _ hk', ih]

theorem lookupA_insertA_self {κ α : Type} [DecidableEq κ] (m : List (κ × α)) (k : κ) (v : α) :
    lookupA (insertA m k v) k = some v :=
  lookupA_cons_pos (k, v) (removeA m k) k rfl

theorem lookupA_insertA_other {κ α : Type} [DecidableEq κ] (m : List (κ × α)) (k k' : κ)
    (v : α) (h : ¬ k' = k) : lookupA (insertA m k v) k' = lookupA m k' := by
  rw [insertA, lookupA_cons_neg (k, v) _ k' (fun hc => h hc.symm), lookupA_removeA_other m k k' h]

theorem nameMapStep_keys (md5 : Str → Bytes) (m : List (Bytes × Str)) (line : Str) (k : Bytes)
    (htrim : trimStr line = line) (hk : md5 (upperStr line) ≠ k) :
    lookupA (nameMapStep md5 m line) k = lookupA m k := by
  unfold nameMapStep
  rw [htrim]
  by_cases hempty : line.isEmpty
  · rw [if_pos hempty]
  · rw [if_neg hempty]
    have h1 : calculate_md5 md5 line = md5 (upperStr line) := calculate_md5_eq_upper md5 line
    have h2 : calculate_md5 md5 (upperStr line) = md5 (upperStr line) := by
      rw [calculate_md5_eq_upper, upperStr_upperStr]
    have h3 : calculate_md5 md5 (lowerStr line) = md5 (upperStr line) := by
      rw [calculate_md5_eq_upper, upperStr_lowerStr]
    rw [h1, h2, h3]
    rw [lookupA_insertA_other _ _ _ _ (fun hc => hk hc.symm),
      lookupA_insertA_other _ _ _ _ (fun hc => hk hc.symm),
      lookupA_insertA_other _ _ _ _ (fun hc => hk hc.symm)]

theorem nameMapFold_preserve (md5 : Str → Bytes) :
    ∀ (lines : List Str) (m0 : List (Bytes × Str)) (k : Bytes),
      (∀ q ∈ lines, trimStr q = q ∧ md5 (upperStr q) ≠ k) →
      lookupA (lines.foldl (nameMapStep md5) m0) k = lookupA m0 k := by
  intro lines
  induction lines with
  | nil => intro m0 k _; rfl
  | cons l rest ih =>
    intro m0 k h
    rw [List.foldl_cons]
    rw [ih (nameMapStep md5 m0 l) k (fun q hq => h q (List.mem_cons_of_mem l hq))]
    exact nameMapStep_keys md5 m0 l k (h l (List.mem_cons_self l rest)).1
      (h l (List.mem_cons_self l rest)).2

theorem nameMapFold_lookup (md5 : Str → Bytes) :
    ∀ (lines : List Str) (m0 : List (Bytes × Str)) (p : Str),
      (∀ l ∈ lines, trimStr l = l ∧ ¬ l = []) →
      p ∈ lines →
      (∀ q ∈ lines, md5 (upperStr q) = md5 (upperStr p) → q = p) →
      lookupA (lines.foldl (nameMapStep md5) m0) (md5 (upperStr p)) = some p := by
  intro lines
  induction lines with
  | nil => intro m0 p _ hp _; simp at hp
  | cons l rest ih =>
    intro m0 p htrim hp hinj
    rw [List.foldl_cons]
    by_cases hpr : p ∈ rest
    · exact ih (nameMapStep md5 m0 l) p (fun q hq => htrim q (List.mem_cons_of_mem l hq)) hpr
        (fun q hq => hinj q (List.mem_cons_of_mem l hq))
    · have hpl : p = l := by
        rcases List.mem_cons.mp hp with h | h
        · exact h
        · exact absurd h hpr
      subst hpl
      have hl := htrim p (List.mem_cons_self p rest)
      have hm1 : lookupA (nameMapStep md5 m0 p) (md5 (upperStr p)) = some p := by
        unfold nameMapStep
        rw [hl.1, if_neg (by simpa [List.isEmpty_iff] using hl.2)]
        have h3 : calculate_md5 md5 (lowerStr p) = md5 (upperStr p) := by
          rw [calculate_md5_eq_upper, upperStr_lowerStr]
        rw [h3]
        exact lookupA_insertA_self _ _ _
      rw [nameMapFold_preserve md5 rest (nameMapStep md5 m0 p) (md5 (upperStr p)) ?_]
      · exact hm1
      · intro q hq
        refine ⟨(htrim q (List.mem_cons_of_mem p hq)).1, ?_⟩
        intro hcon
        exact hpr ((hinj q (List.mem_cons_of_mem p hq) hcon) ▸ hq)


theorem buildNameMap_lookup (md5 : Str → Bytes) (paths : List Str)
    (hpaths : ∀ q ∈ paths, trimStr q = q ∧ ¬ q = [] ∧
      (∀ c ∈ q, ¬ c = Char.ofNat 10) ∧ (∀ c ∈ q, ¬ c = Char.ofNat 0))
    (hinjp : ∀ q ∈ paths, ∀ r ∈ paths, md5 (upperStr q) = md5 (upperStr r) → q = r)
    (p : Str) (hp : p ∈ paths) :
    lookupA (buildNameMap md5 (manifest_bytes_from_paths paths)) (md5 (upperStr p)) = some p := by
  have hne : paths ≠ [] := List.ne_nil_of_mem hp
  have hsplit : splitOnPred (fun c => c = Char.ofNat 10 || c = Char.ofNat 0) (joinNL paths)
      = paths := by
    apply splitOnPred_joinNL _ paths hne
    · intro q hq c hc
      obtain ⟨_, _, h10, h0⟩ := hpaths q hq
      simp only [Bool.or_eq_false_iff, decide_eq_false_iff_not]
      exact ⟨h10 c hc, h0 c hc⟩
    · decide
  have hfilter : paths.filter (fun l => !(trimStr l).isEmpty) = paths := by
    apply List.filter_eq_self.mpr
    intro q hq
    obtain ⟨ht, hne2, _, _⟩ := hpaths q hq
    rw [ht]
    simpa [List.isEmpty_iff] using hne2
  simp only [buildNameMap, manifest_bytes_from_paths, utf8Lossy_encode, hsplit, hfilter]
  exact nameMapFold_lookup md5 paths [] p
    (fun l hl => ⟨(hpaths l hl).1, (hpaths l hl).2.1⟩) hp
    (fun q hq heq => hinjp q hq p hp heq)

/-! ## Structure of the chunk list -/

theorem chunksOf_ne_nil {α : Type} (n : Nat) (hn : 0 < n) (l : List α) (hl : l ≠ []) :
    chunksOf n l ≠ [] := by
  rw [chunksOf_eq_cons n hn l hl]
  simp

theorem chunksOf_single {α : Type} (n : Nat) (hn : 0 < n) (l : List α) (h1 : l ≠ [])
    (h2 : l.length ≤ n) : chunksOf n l = [l] := by
  rw [chunksOf_eq_cons n hn l h1, List.take_of_length_le h2, List.drop_eq_nil_of_le h2,
    chunksOf_nil]

theorem chunksOf_two_le {α : Type} (n : Nat) (hn : 0 < n) (l : List α) (h : n < l.length) :
    2 ≤ (chunksOf n l).length := by
  have hl : l ≠ [] := by
    intro hc
    subst hc
    simp at h
  rw [chunksOf_eq_cons n hn l hl, List.length_cons]
  have hd : l.drop n ≠ [] := by
    intro hc
    have := congrArg List.length hc
    simp only [List.length_drop, List.length_nil] at this
    omega
  have := List.length_pos.mpr (chunksOf_ne_nil n hn (l.drop n) hd)
  omega

theorem chunksOf_length_le {α : Type} (n : Nat) (hn : 0 < n) :
    ∀ (N : Nat) (l : List α), l.length ≤ N → (chunksOf n l).length ≤ l.length := by
  intro N
  induction N with
  | zero =>
    intro l hl
    have : l = [] := List.eq_nil_of_length_eq_zero (Nat.le_zero.mp hl)
    subst this
    simp [chunksOf_nil]
  | succ N ih =>
    intro l hl
    by_cases hne : l = []
    · subst hne; simp [chunksOf_nil]
    · rw [chunksOf_eq_cons n hn l hne, List.length_cons]
      have h1 : 1 ≤ l.length := List.length_pos.mpr hne
      have h2 := ih (l.drop n) (by simp only [List.length_drop]; omega)
      simp only [List.length_drop] at h2
      omega

theorem chunksOf_all_full {α : Type} (n : Nat) (hn : 0 < n) :
    ∀ (N : Nat) (l : List α), l.length ≤ N → ∀ (i : Nat) (ch : List α),
      (chunksOf n l)[i]? = some ch → i + 1 < (chunksOf n l).length → ch.length = n := by
  intro N
  induction N with
  | zero =>
    intro l hl i ch hch _
    have : l = [] := List.eq_nil_of_length_eq_zero (Nat.le_zero.mp hl)
    subst this
    simp [chunksOf_nil] at hch
  | succ N ih =>
    intro l hl i ch hch hlt
    by_cases hne : l = []
    · subst hne; simp [chunksOf_nil] at hch
    · rw [chunksOf_eq_cons n hn l hne] at hch hlt
      cases i with
      | zero =>
        simp only [List.getElem?_cons_zero, Option.some.injEq] at hch
        subst hch
        rw [List.length_cons] at hlt
        have hd : l.drop n ≠ [] := by
          intro hc
          rw [hc, chunksOf_nil] at hlt
          simp at hlt
        have : n < l.length := by
          by_contra hcon
          exact hd (List.drop_eq_nil_of_le (by omega))
        simp only [List.length_take]
        omega
      | succ j =>
        rw [List.getElem?_cons_succ] at hch
        rw [List.length_cons] at hlt
        have h1 : 1 ≤ l.length := List.length_pos.mpr hne
        exact ih (l.drop n) (by simp only [List.length_drop]; omega) j ch hch (by omega)

theorem list_mem_full_or_last {α : Type} (L : List α) (x : α) (hx : x ∈ L) :
    (∃ i, L[i]? = some x ∧ i + 1 < L.length) ∨ L.getLast? = some x := by
  obtain ⟨i, hi, hget⟩ := List.getElem_of_mem hx
  by_cases hlt : i + 1 < L.length
  · exact Or.inl ⟨i, by rw [List.getElem?_eq_getElem hi, hget], hlt⟩
  · right
    have : i = L.length - 1 := by omega
    subst this
    rw [List.getLast?_eq_getElem?, List.getElem?_eq_getElem hi, hget]

/-! ## Stored block facts -/

theorem isZlibHeader_length (l : Bytes) (h : isZlibHeader l = true) : 2 ≤ l.length := by
  match l with
  | [] => simp [isZlibHeader] at h
  | [_] => simp [isZlibHeader] at h
  | _ :: _ :: _ => simp

theorem processBlock_stored_pos (compress : Bytes → Bytes) (ch : Bytes)
    (H2 : ∀ x, isZlibHeader (compress x) = true) (hch : 0 < ch.length) :
    0 < (processBlock compress ch).1.length := by
  by_cases hcomp : (compress ch).length < ch.length
  · rw [processBlock_pos compress ch hcomp]
    have := isZlibHeader_length (compress ch) (H2 ch)
    show 0 < (compress ch).length
    omega
  · rw [processBlock_neg compress ch hcomp]
    exact hch

theorem processFileData_pos (compress : Bytes → Bytes) (c : Bytes)
    (H2 : ∀ x, isZlibHeader (compress x) = true) (hc : c ≠ []) :
    0 < (processFileData compress c).1.length := by
  have hbs : (0 : Nat) < BLOCK_SIZE := by norm_num [BLOCK_SIZE]
  unfold processFileData
  rw [chunksOf_eq_cons BLOCK_SIZE hbs c hc]
  simp only [List.map_cons, List.flatten_cons, List.length_append]
  have htake : 0 < (c.take BLOCK_SIZE).length := by
    simp only [List.length_take]
    have := List.length_pos.mpr hc
    simp only [BLOCK_SIZE]
    omega
  have := processBlock_stored_pos compress (c.take BLOCK_SIZE) H2 htake
  omega

theorem processManifestData_eq (compress : Bytes → Bytes) (M : Bytes)
    (Hm : ∀ ch ∈ chunksOf BLOCK_SIZE M,
      (compress ch).length < ch.length ∨ ch.length = BLOCK_SIZE) :
    processManifestData compress M = processFileData compress M := by
  have hblock : ∀ ch ∈ chunksOf BLOCK_SIZE M,
      processManifestBlock compress ch = processBlock compress ch := by
    intro ch hch
    by_cases hcomp : (compress ch).length < ch.length
    · rw [processManifestBlock_pos compress ch hcomp, processBlock_pos compress ch hcomp]
    · rcases Hm ch hch with h | h
      · exact absurd h hcomp
      · rw [processManifestBlock_neg compress ch hcomp, processBlock_neg compress ch hcomp,
          if_pos h]
  have h1 : List.map (fun ch => (processManifestBlock compress ch).1) (chunksOf BLOCK_SIZE M)
      = List.map (fun ch => (processBlock compress ch).1) (chunksOf BLOCK_SIZE M) :=
    List.map_congr_left (fun ch hch => congrArg Prod.fst (hblock ch hch))
  have h2 : List.map (fun ch => (processManifestBlock compress ch).2) (chunksOf BLOCK_SIZE M)
      = List.map (fun ch => (processBlock compress ch).2) (chunksOf BLOCK_SIZE M) :=
    List.map_congr_left (fun ch hch => congrArg Prod.snd (hblock ch hch))
  simp only [processManifestData, processFileData, h1, h2]

/-! ## Big-endian serialization round-trips -/

theorem be16_length (n : Nat) : (be16 n).length = 2 := rfl

theorem be32_length (n : Nat) : (be32 n).length = 4 := rfl

theorem beNat_be16 (n : Nat) : beNat (be16 n) = n % 65536 := by
  simp only [be16, beNat, List.foldl]
  omega

theorem beNat_be32 (n : Nat) : beNat (be32 n) = n % 4294967296 := by
  simp only [be32, beNat, List.foldl]
  omega

theorem beNat_single (x : Nat) : beNat [x] = x := by
  simp only [beNat, List.foldl]
  omega

/-! ## Reading a slice that is known to sit at an absolute offset -/

theorem readSlice_drop_eq (b : Bytes) (i : Nat) (m ys : Bytes)
    (h : b.drop i = m ++ ys) (hm : m ≠ []) : readSlice b i m.length = some m := by
  have hlen : (b.drop i).length = m.length + ys.length := by
    rw [h, List.length_append]
  rw [List.length_drop] at hlen
  have hmp : 0 < m.length := List.length_pos.mpr hm
  have hib : i + m.length ≤ b.length := by omega
  unfold readSlice
  rw [if_pos hib, h, List.take_left]

theorem readU32_drop (b : Bytes) (i v : Nat) (ys : Bytes)
    (h : b.drop i = be32 v ++ ys) : readU32 b i = some (v % 4294967296) := by
  have h4 : readSlice b i 4 = some (be32 v) := by
    have := readSlice_drop_eq b i (be32 v) ys h (by simp [be32])
    rwa [be32_length] at this
  rw [readU32, h4, Option.map_some']
  rw [beNat_be32]

theorem readU16_drop (b : Bytes) (i v : Nat) (ys : Bytes)
    (h : b.drop i = be16 v ++ ys) : readU16 b i = some (v % 65536) := by
  have h2 : readSlice b i 2 = some (be16 v) := by
    have := readSlice_drop_eq b i (be16 v) ys h (by simp [be16])
    rwa [be16_length] at this
  rw [readU16, h2, Option.map_some']
  rw [beNat_be16]

theorem readU8_drop (b : Bytes) (i v : Nat) (ys : Bytes)
    (h : b.drop i = v :: ys) : readU8 b i = some v := by
  have h1 : readSlice b i 1 = some [v] := by
    have := readSlice_drop_eq b i [v] ys (by simpa using h) (by simp)
    simpa using this
  rw [readU8, h1, Option.map_some', beNat_single]

/-- Advance an absolute-offset decomposition of the archive past a known
prefix. -/
theorem drop_add_of_drop (b : Bytes) (i : Nat) (m ys : Bytes)
    (h : b.drop i = m ++ ys) : b.drop (i + m.length) = ys := by
  rw [← List.drop_drop, h, List.drop_left]

/-! ## Parsing back the rendered TOC and ZSize table -/

theorem renderEntry_length (toc : Nat) (e : Entry) (hh : e.name_hash.length = 16) :
    (renderEntry toc e).length = 30 := by
  simp [renderEntry, hh, be32_length]

theorem parseEntry_drop (b : Bytes) (i toc : Nat) (e : Entry) (ys : Bytes)
    (h : b.drop i = renderEntry toc e ++ ys)
    (hh : e.name_hash.length = 16)
    (hzi : e.zsize_index < 4294967296)
    (hunc : e.uncompressed_size < 1099511627776)
    (hoff : e.offset + toc < 1099511627776) :
    parseEntry b i = some ⟨e.name_hash, e.zsize_index, e.uncompressed_size, e.offset + toc⟩ := by
  rw [renderEntry] at h
  simp only [List.append_assoc] at h
  have h0 : readSlice b i 16 = some e.name_hash := by
    have := readSlice_drop_eq b i e.name_hash _ h (by
      intro hc
      rw [hc] at hh
      simp at hh)
    rwa [hh] at this
  have d1 := drop_add_of_drop b i e.name_hash _ h
  rw [hh] at d1
  have h1 : readU32 b (i + 16) = some e.zsize_index := by
    rw [readU32_drop b (i + 16) e.zsize_index _ d1, Nat.mod_eq_of_lt hzi]
  have d2 := drop_add_of_drop b (i + 16) (be32 e.zsize_index) _ d1
  rw [be32_length, show i + 16 + 4 = i + 20 from by omega] at d2
  rw [show ([e.uncompressed_size / 4294967296 % 256] : Bytes)
    ++ (be32 e.uncompressed_size ++ ([(e.offset + toc) / 4294967296 % 256]
      ++ (be32 (e.offset + toc) ++ ys)))
    = e.uncompressed_size / 4294967296 % 256
      :: (be32 e.uncompressed_size ++ ([(e.offset + toc) / 4294967296 % 256]
        ++ (be32 (e.offset + toc) ++ ys))) from rfl] at d2
  have h2 : readU8 b (i + 20) = some (e.uncompressed_size / 4294967296 % 256) :=
    readU8_drop b (i + 20) _ _ d2
  have d3 := drop_add_of_drop b (i + 20) [e.uncompressed_size / 4294967296 % 256] _
    (by simpa using d2)
  simp only [List.length_cons, List.length_nil] at d3
  rw [show i + 20 + (0 + 1) = i + 21 from by omega] at d3
  have h3 : readU32 b (i + 21) = some (e.uncompressed_size % 4294967296) :=
    readU32_drop b (i + 21) _ _ d3
  have d4 := drop_add_of_drop b (i + 21) (be32 e.uncompressed_size) _ d3
  rw [be32_length, show i + 21 + 4 = i + 25 from by omega] at d4
  have h4 : readU8 b (i + 25) = some ((e.offset + toc) / 4294967296 % 256) :=
    readU8_drop b (i + 25) _ _ d4
  have d5 := drop_add_of_drop b (i + 25) [(e.offset + toc) / 4294967296 % 256] _
    (by simpa using d4)
  simp only [List.length_cons, List.length_nil] at d5
  rw [show i + 25 + (0 + 1) = i + 26 from by omega] at d5
  have h5 : readU32 b (i + 26) = some ((e.offset + toc) % 4294967296) :=
    readU32_drop b (i + 26) _ _ d5
  rw [parseEntry]
  rw [h0, h1, h2, h3, h4, h5]
  simp only [Option.bind_eq_bind, Option.some_bind, Option.pure_def, Option.some.injEq]
  have e1 : e.uncompressed_size / 4294967296 % 256 * 4294967296
      + e.uncompressed_size % 4294967296 = e.uncompressed_size := by omega
  have e2 : (e.offset + toc) / 4294967296 % 256 * 4294967296
      + (e.offset + toc) % 4294967296 = e.offset + toc := by omega
  rw [e1, e2]

theorem parseEntries_drop (b : Bytes) (toc : Nat) :
    ∀ (es : List Entry) (i : Nat) (ys : Bytes),
      b.drop i = (es.map (renderEntry toc)).flatten ++ ys →
      (∀ e ∈ es, e.name_hash.length = 16 ∧ e.zsize_index < 4294967296 ∧
        e.uncompressed_size < 1099511627776 ∧ e.offset + toc < 1099511627776) →
      parseEntries b i es.length
        = some (es.map (fun e =>
            ⟨e.name_hash, e.zsize_index, e.uncompressed_size, e.offset + toc⟩)) := by
  intro es
  induction es with
  | nil => intro i ys _ _; rfl
  | cons e rest ih =>
    intro i ys h hset
    obtain ⟨hh, hzi, hunc, hoff⟩ := hset e (List.mem_cons_self e rest)
    simp only [List.map_cons, List.flatten_cons, List.append_assoc] at h
    have h0 := parseEntry_drop b i toc e _ h hh hzi hunc hoff
    have d1 : b.drop (i + 30) = (rest.map (renderEntry toc)).flatten ++ ys := by
      have := drop_add_of_drop b i (renderEntry toc e) _ h
      rwa [renderEntry_length toc e hh] at this
    have h1 := ih (i + 30) ys d1 (fun q hq => hset q (List.mem_cons_of_mem e hq))
    rw [List.length_cons, parseEntries, h0, h1]
    simp only [Option.bind_eq_bind, Option.some_bind, Option.pure_def, List.map_cons]

theorem parseZsizes_drop (b : Bytes) :
    ∀ (zs : List Nat) (i : Nat) (ys : Bytes),
      b.drop i = (zs.map be16).flatten ++ ys →
      (∀ z ∈ zs, z < 65536) →
      parseZsizes b i zs.length = some zs := by
  intro zs
  induction zs with
  | nil => intro i ys _ _; rfl
  | cons z rest ih =>
    intro i ys h hset
    simp only [List.map_cons, List.flatten_cons, List.append_assoc] at h
    have h0 : readU16 b i = some z := by
      rw [readU16_drop b i z _ h, Nat.mod_eq_of_lt (hset z (List.mem_cons_self z rest))]
    have d1 : b.drop (i + 2) = (rest.map be16).flatten ++ ys := by
      have := drop_add_of_drop b i (be16 z) _ h
      rwa [be16_length] at this
    have h1 := ih (i + 2) ys d1 (fun q hq => hset q (List.mem_cons_of_mem z hq))
    rw [List.length_cons, parseZsizes, h0, h1]
    simp only [Option.bind_eq_bind, Option.some_bind, Option.pure_def]

/-! ## One iteration of the block-reading loop on a packed block -/

/-- Unfold one iteration of `readFileLoop` when the ZSize entry is in range
and the result is still short. -/
theorem readFileLoop_succ_some (decompress : Bytes → Option Bytes) (b : Bytes) (unc : Nat)
    (zsizes : List Nat) (block_size fuel : Nat) (result : Bytes) (off zidx remaining z : Nat)
    (hz : zsizes[zidx]? = some z) (hnd : ¬ unc ≤ result.length) :
    readFileLoop decompress b unc zsizes block_size (fuel + 1) result off zidx remaining
      = (let compressed_size : Nat := if z = 0 then block_size else z
        if b.length < off + compressed_size then .error .InvalidData
        else
          let compressed_data := (b.drop off).take compressed_size
          let step : Except ExtractErr Bytes :=
            if compressed_size = unc then .ok compressed_data
            else if z = 0 then
              if remaining < block_size then
                .ok (compressed_data.take (min remaining compressed_data.length))
              else .ok compressed_data
            else
              let target_size := if remaining < block_size ∨ compressed_size = block_size
                then remaining else block_size
              if isZlibHeader compressed_data then
                match decompress compressed_data with
                | none => .error .InvalidData
                | some dblock =>
                  .ok (if target_size < dblock.length then dblock.take target_size else dblock)
              else .ok (compressed_data.take (min target_size compressed_data.length))
          match step with
          | .error e => .error e
          | .ok dec =>
            readFileLoop decompress b unc zsizes block_size fuel (result ++ dec)
              (off + compressed_size) (zidx + 1) (remaining - block_size)) := by
  have h0 : readFileLoop decompress b unc zsizes block_size (fuel + 1) result off zidx remaining
      = if unc ≤ result.length then .ok result
        else match zsizes[zidx]? with
          | none => .error .InvalidData
          | some z =>
            let compressed_size := if z = 0 then block_size else z
            if b.length < off + compressed_size then .error .InvalidData
            else
              let compressed_data := (b.drop off).take compressed_size
              let step : Except ExtractErr Bytes :=
                if compressed_size = unc then .ok compressed_data
                else if z = 0 then
                  if remaining < block_size then
                    .ok (compressed_data.take (min remaining compressed_data.length))
                  else .ok compressed_data
                else
                  let target_size := if remaining < block_size ∨ compressed_size = block_size
                    then remaining else block_size
                  if isZlibHeader compressed_data then
                    match decompress compressed_data with
                    | none => .error .InvalidData
                    | some dblock =>
                      .ok (if target_size < dblock.length then dblock.take target_size
                        else dblock)
                  else .ok (compressed_data.take (min target_size compressed_data.length))
              match step with
              | .error e => .error e
              | .ok dec =>
                readFileLoop decompress b unc zsizes block_size fuel (result ++ dec)
                  (off + compressed_size) (zidx + 1) (remaining - block_size) := rfl
  rw [h0, if_neg hnd, hz]

theorem readFileLoop_step (decompress : Bytes → Option Bytes) (compress : Bytes → Bytes)
    (H1 : ∀ x, decompress (compress x) = some x)
    (H2 : ∀ x, isZlibHeader (compress x) = true)
    (b : Bytes) (zsAll : List Nat) (ch tailb : Bytes) (tailz : List Nat)
    (unc fuel : Nat) (acc : Bytes) (off zidx rem : Nat)
    (hne : ch ≠ []) (hle : ch.length ≤ 65536)
    (hb : b.drop off = (processBlock compress ch).1 ++ tailb)
    (hz : zsAll.drop zidx = (processBlock compress ch).2 :: tailz)
    (hremge : ch.length ≤ rem)
    (hrem2 : ¬ (compress ch).length < ch.length → ¬ ch.length = 65536 → rem = ch.length)
    (hunceq : unc = acc.length + rem)
    (hhdr : ¬ (compress ch).length < ch.length → ¬ ch.length = 65536 →
      acc = [] ∨ isZlibHeader ch = false) :
    readFileLoop decompress b unc zsAll 65536 (fuel + 1) acc off zidx rem
      = readFileLoop decompress b unc zsAll 65536 fuel (acc ++ ch)
          (off + ((processBlock compress ch).1).length) (zidx + 1) (rem - 65536) := by
  have hchpos : 0 < ch.length := List.length_pos.mpr hne
  have hnotdone : ¬ unc ≤ acc.length := by omega
  have hzidx : zsAll[zidx]? = some (processBlock compress ch).2 := by
    have hg := List.getElem?_drop zsAll zidx 0
    rw [hz] at hg
    simpa using hg.symm
  have hdlen : b.length - off = ((processBlock compress ch).1).length + tailb.length := by
    rw [← List.length_drop, hb, List.length_append]
  rw [readFileLoop_succ_some decompress b unc zsAll 65536 fuel acc off zidx rem
    (processBlock compress ch).2 hzidx hnotdone]
  simp only []
  by_cases hcomp : (compress ch).length < ch.length
  · -- compressed block: stored bytes are the zlib stream, zsize its length
    have hs1 : (processBlock compress ch).1 = compress ch := by
      rw [processBlock_pos compress ch hcomp]
    have hs2 : (processBlock compress ch).2 = (compress ch).length := by
      rw [processBlock_pos compress ch hcomp]
    rw [hs1] at hb hdlen
    rw [hs1, hs2]
    have hz2 : 2 ≤ (compress ch).length := isZlibHeader_length _ (H2 ch)
    have hz0 : ¬ (compress ch).length = 0 := by omega
    rw [if_neg hz0]
    have hbound : ¬ b.length < off + (compress ch).length := by omega
    rw [if_neg hbound]
    have hcd : (b.drop off).take (compress ch).length = compress ch := by
      rw [hb, List.take_left]
    rw [hcd]
    have hcu : ¬ (compress ch).length = unc := by omega
    rw [if_neg hcu, if_neg hz0, H2 ch, if_pos rfl, H1 ch]
    simp only []
    have hzbs : ¬ (compress ch).length = 65536 := by omega
    have htarget : ¬ (if rem < 65536 ∨ (compress ch).length = 65536 then rem else 65536)
        < ch.length := by
      by_cases hr : rem < 65536 ∨ (compress ch).length = 65536
      · rcases hr with hr1 | hr1
        · rw [if_pos (Or.inl hr1)]; omega
        · exact absurd hr1 hzbs
      · rw [if_neg hr]; omega
    rw [if_neg htarget]
  · -- raw block
    have hs1 : (processBlock compress ch).1 = ch := by
      rw [processBlock_neg compress ch hcomp]
    have hs2 : (processBlock compress ch).2
        = if ch.length = 65536 then 0 else ch.length := by
      rw [processBlock_neg compress ch hcomp]
      rfl
    rw [hs1] at hb hdlen
    rw [hs1, hs2]
    by_cases hfull : ch.length = 65536
    · -- full raw block: zsize 0, stored as-is
      rw [if_pos hfull, if_pos rfl]
      have hbound : ¬ b.length < off + 65536 := by omega
      rw [if_neg hbound]
      have hcd : (b.drop off).take 65536 = ch := by
        rw [hb, ← hfull, List.take_left]
      rw [hcd]
      have hrge : ¬ rem < 65536 := by omega
      by_cases huc : (65536 : Nat) = unc
      · rw [if_pos huc, hfull]
      · rw [if_neg huc, if_pos rfl, if_neg hrge, hfull]
    · -- partial raw block: zsize is the raw length, this is the final block
      rw [if_neg hfull]
      have hzch : ¬ ch.length = 0 := by omega
      rw [if_neg hzch]
      have hbound : ¬ b.length < off + ch.length := by omega
      rw [if_neg hbound]
      have hcd : (b.drop off).take ch.length = ch := by
        rw [hb, List.take_left]
      rw [hcd]
      have hrem : rem = ch.length := hrem2 hcomp hfull
      by_cases hacc0 : acc.length = 0
      · have huc : ch.length = unc := by omega
        rw [if_pos huc]
      · have huc : ¬ ch.length = unc := by omega
        rw [if_neg huc, if_neg hzch]
        have hAccNe : ¬ acc = [] := by
          intro hc
          rw [hc] at hacc0
          simp at hacc0
        have hhd : isZlibHeader ch = false := by
          rcases hhdr hcomp hfull with hl | hr
          · exact absurd hl hAccNe
          · exact hr
        rw [hhd]
        have htp : (if rem < 65536 ∨ ch.length = 65536 then rem else 65536) = ch.length := by
          rw [if_pos (Or.inl (by omega))]
          exact hrem
        rw [if_neg Bool.false_ne_true, htp, Nat.min_self, List.take_length]

theorem readFileLoop_done (d : Bytes → Option Bytes) (b : Bytes) (unc : Nat)
    (zs : List Nat) (bs fuel : Nat) (res : Bytes) (off zidx rem : Nat)
    (h : unc ≤ res.length) :
    readFileLoop d b unc zs bs fuel res off zidx rem = .ok res := by
  cases fuel with
  | zero =>
    have h0 : readFileLoop d b unc zs bs 0 res off zidx rem
        = if unc ≤ res.length then .ok res else .error .InvalidData := rfl
    rw [h0, if_pos h]
  | succ f =>
    rw [readFileLoop.eq_def]
    simp only []
    rw [if_pos h]

/-- The block loop reconstructs the concatenation of the original chunks laid
down by `processBlock`, provided every non-final chunk is block-sized and a
raw partial final chunk does not look like a zlib stream. -/
theorem readFileLoop_chunks (decompress : Bytes → Option Bytes) (compress : Bytes → Bytes)
    (H1 : ∀ x, decompress (compress x) = some x)
    (H2 : ∀ x, isZlibHeader (compress x) = true)
    (b : Bytes) (zsAll : List Nat) (unc : Nat) :
    ∀ (chs : List Bytes) (fuel : Nat) (acc : Bytes) (off zidx : Nat),
      chs.length ≤ fuel →
      (∀ ch ∈ chs, ch ≠ [] ∧ ch.length ≤ 65536) →
      (∀ (i : Nat) (ch : Bytes), chs[i]? = some ch → i + 1 < chs.length →
        ch.length = 65536) →
      (∀ ch ∈ chs, ¬ (compress ch).length < ch.length → ¬ ch.length = 65536 →
        (acc = [] ∧ chs.length = 1) ∨ isZlibHeader ch = false) →
      (chs = [] ∨ acc = [] ∨ 65536 ≤ acc.length) →
      unc = acc.length + (chs.map List.length).sum →
      (∃ post, b.drop off
        = (chs.map (fun ch => (processBlock compress ch).1)).flatten ++ post) →
      (∃ postz, zsAll.drop zidx
        = chs.map (fun ch => (processBlock compress ch).2) ++ postz) →
      readFileLoop decompress b unc zsAll 65536 fuel acc off zidx
          ((chs.map List.length).sum)
        = .ok (acc ++ chs.flatten) := by
  intro chs
  induction chs with
  | nil =>
    intro fuel acc off zidx _ _ _ _ _ hunc _ _
    simp only [List.map_nil, List.sum_nil] at hunc ⊢
    rw [readFileLoop_done decompress b unc zsAll 65536 fuel acc off zidx 0 (by omega)]
    rw [List.flatten_nil, List.append_nil]
  | cons ch rest ih =>
    intro fuel acc off zidx hfuel hmem hfull hraw hacc hunc hb hz
    obtain ⟨post, hb⟩ := hb
    obtain ⟨postz, hz⟩ := hz
    obtain ⟨hne, hle⟩ := hmem ch (List.mem_cons_self ch rest)
    simp only [List.length_cons] at hfuel
    cases fuel with
    | zero => omega
    | succ f =>
      have hfuel' : rest.length ≤ f := by omega
      simp only [List.map_cons, List.flatten_cons, List.append_assoc] at hb
      simp only [List.map_cons, List.cons_append] at hz
      have hcase : rest = [] ∨ ch.length = 65536 := by
        cases rest with
        | nil => exact Or.inl rfl
        | cons a t =>
          refine Or.inr (hfull 0 ch rfl ?_)
          simp only [List.length_cons]
          omega
      simp only [List.map_cons, List.sum_cons]
      rw [readFileLoop_step decompress compress H1 H2 b zsAll ch _ _ unc f acc off zidx
        (ch.length + (rest.map List.length).sum) hne hle hb hz
        (by omega)
        (fun h1 h2 => by
          have hrest : rest = [] := by
            rcases hcase with hr | hr
            · exact hr
            · exact absurd hr h2
          subst hrest
          simp)
        (by
          simp only [List.map_cons, List.sum_cons] at hunc
          exact hunc)
        (fun h1 h2 => by
          rcases hraw ch (List.mem_cons_self ch rest) h1 h2 with ⟨ha, _⟩ | hh
          · exact Or.inl ha
          · exact Or.inr hh)]
      have hremeq : ch.length + (rest.map List.length).sum - 65536
          = (rest.map List.length).sum := by
        rcases hcase with hr | hr
        · subst hr
          simp only [List.map_nil, List.sum_nil]
          omega
        · omega
      rw [hremeq]
      have hconc := ih f (acc ++ ch) (off + ((processBlock compress ch).1).length) (zidx + 1)
        hfuel'
        (fun q hq => hmem q (List.mem_cons_of_mem ch hq))
        (fun i q hq hlt => hfull (i + 1) q (by simpa using hq)
          (by simp only [List.length_cons]; omega))
        (fun q hq h1 h2 => by
          rcases hraw q (List.mem_cons_of_mem ch hq) h1 h2 with ⟨_, hlen1⟩ | hh
          · exfalso
            have : rest = [] := by
              simp only [List.length_cons] at hlen1
              exact List.eq_nil_of_length_eq_zero (by omega)
            subst this
            simp at hq
          · exact Or.inr hh)
        (by
          rcases hcase with hr | hr
          · exact Or.inl hr
          · refine Or.inr (Or.inr ?_)
            rw [List.length_append]
            omega)
        (by
          simp only [List.map_cons, List.sum_cons] at hunc
          rw [List.length_append]
          omega)
        ⟨post, by
          have := drop_add_of_drop b off ((processBlock compress ch).1) _ hb
          exact this⟩
        ⟨postz, by
          have hd := List.drop_drop 1 zidx zsAll
          rw [hz] at hd
          simp only [List.drop_succ_cons, List.drop_zero] at hd
          exact hd.symm⟩
      rw [hconc, List.flatten_cons, List.append_assoc]

/-- `read_file_data` reconstructs a file's original contents from its packed
blocks. -/
theorem read_file_data_ok (decompress : Bytes → Option Bytes) (compress : Bytes → Bytes)
    (H1 : ∀ x, decompress (compress x) = some x)
    (H2 : ∀ x, isZlibHeader (compress x) = true)
    (b : Bytes) (zsAll : List Nat) (c : Bytes) (e : Entry)
    (hc : c ≠ []) (hraw : RawLastOk compress c)
    (hunc : e.uncompressed_size = c.length)
    (hb : ∃ post, b.drop e.offset = (processFileData compress c).1 ++ post)
    (hz : ∃ postz, zsAll.drop e.zsize_index
      = (processFileData compress c).2 ++ postz) :
    read_file_data decompress b e zsAll 65536 = .ok c := by
  have hbs : (0 : Nat) < BLOCK_SIZE := by norm_num [BLOCK_SIZE]
  have hb65 : BLOCK_SIZE = 65536 := rfl
  obtain ⟨post, hb⟩ := hb
  obtain ⟨postz, hz⟩ := hz
  have hpf1 : (processFileData compress c).1
      = ((chunksOf BLOCK_SIZE c).map (fun ch => (processBlock compress ch).1)).flatten := rfl
  have hpf2 : (processFileData compress c).2
      = (chunksOf BLOCK_SIZE c).map (fun ch => (processBlock compress ch).2) := rfl
  rw [hpf1] at hb
  rw [hpf2] at hz
  have hsum : ((chunksOf BLOCK_SIZE c).map List.length).sum = c.length := by
    rw [← List.length_flatten, flatten_chunksOf BLOCK_SIZE hbs c]
  have hstpos : 0 < (processFileData compress c).1.length :=
    processFileData_pos compress c H2 hc
  rw [hpf1] at hstpos
  have hdlen : b.length - e.offset
      = ((chunksOf BLOCK_SIZE c).map
          (fun ch => (processBlock compress ch).1)).flatten.length + post.length := by
    rw [← List.length_drop, hb, List.length_append]
  have hpre : ¬ b.length ≤ e.offset := by omega
  unfold read_file_data
  rw [if_neg hpre, hunc]
  have hloop := readFileLoop_chunks decompress compress H1 H2 b zsAll c.length
    (chunksOf BLOCK_SIZE c) c.length [] e.offset e.zsize_index
    (by
      have := chunksOf_length_le BLOCK_SIZE hbs c.length c (Nat.le_refl _)
      omega)
    (fun ch hch => by
      have := mem_chunksOf_len BLOCK_SIZE hbs c ch hch
      constructor
      · intro hcc
        rw [hcc] at this
        simp at this
      · rw [← hb65]
        exact this.2)
    (fun i ch hch hlt => by
      have := chunksOf_all_full BLOCK_SIZE hbs c.length c (Nat.le_refl _) i ch hch hlt
      rw [← hb65]
      exact this)
    (fun ch hch h1 h2 => by
      by_cases hlen1 : (chunksOf BLOCK_SIZE c).length = 1
      · exact Or.inl ⟨rfl, hlen1⟩
      · have hchpos : 0 < (chunksOf BLOCK_SIZE c).length :=
          List.length_pos.mpr (List.ne_nil_of_mem hch)
        have h2le : 2 ≤ (chunksOf BLOCK_SIZE c).length := by omega
        rcases list_mem_full_or_last (chunksOf BLOCK_SIZE c) ch hch with ⟨i, hi, hlt⟩ | hlast
        · have := chunksOf_all_full BLOCK_SIZE hbs c.length c (Nat.le_refl _) i ch hi hlt
          rw [hb65] at this
          exact absurd this h2
        · have hgd : (chunksOf BLOCK_SIZE c).getLastD [] = ch := by
            rw [List.getLastD_eq_getLast?, hlast]
            rfl
          refine Or.inr ?_
          have hpart : ch.length < BLOCK_SIZE := by
            have := (mem_chunksOf_len BLOCK_SIZE hbs c ch hch).2
            rw [hb65] at this ⊢
            omega
          have := hraw h2le (by rw [hgd]; exact h1) (by rw [hgd]; exact hpart)
          rwa [hgd] at this)
    (Or.inr (Or.inl rfl))
    (by simp [hsum])
    ⟨post, hb⟩
    ⟨postz, hz⟩
  rw [hsum] at hloop
  rw [hloop, List.nil_append, flatten_chunksOf BLOCK_SIZE hbs c]

/-! ## Shape of the sequential write phase in full mode -/

theorem writeProcessed_full_zsizes (compress : Bytes → Bytes) (md5 : Str → Bytes)
    (ms : List Str) (cache : List (Bytes × CachedFileData)) :
    ∀ (fs : List (Str × Bytes)) (k zlen off : Nat),
      (writeProcessedAux PackingMode.Full ms cache
          (fs.zip (processFilesFrom compress md5 PackingMode.Full ms cache k fs)) zlen off).2.1
        = (fs.map (fun pc => (processFileData compress pc.2).2)).flatten := by
  intro fs
  induction fs with
  | nil => intro k zlen off; rfl
  | cons pc rest ih =>
    intro k zlen off
    have ihh := ih (k + 1) (zlen + ((processFileData compress pc.2).2).length)
      (off + ((processFileData compress pc.2).1).length)
    simp only [List.zip] at ihh
    simp only [processFilesFrom, processOneFile_full, List.zip_cons_cons, List.zip,
      writeProcessedAux, List.map_cons, List.flatten_cons]
    rw [ihh]

theorem writeProcessed_full_data (compress : Bytes → Bytes) (md5 : Str → Bytes)
    (ms : List Str) (cache : List (Bytes × CachedFileData)) :
    ∀ (fs : List (Str × Bytes)) (k zlen off : Nat),
      (writeProcessedAux PackingMode.Full ms cache
          (fs.zip (processFilesFrom compress md5 PackingMode.Full ms cache k fs)) zlen
          off).2.2.1
        = (fs.map (fun pc => (processFileData compress pc.2).1)).flatten := by
  intro fs
  induction fs with
  | nil => intro k zlen off; rfl
  | cons pc rest ih =>
    intro k zlen off
    have ihh := ih (k + 1) (zlen + ((processFileData compress pc.2).2).length)
      (off + ((processFileData compress pc.2).1).length)
    simp only [List.zip] at ihh
    simp only [processFilesFrom, processOneFile_full, List.zip_cons_cons, List.zip,
      writeProcessedAux, List.map_cons, List.flatten_cons]
    rw [ihh]

theorem writeProcessed_full_entries (compress : Bytes → Bytes) (md5 : Str → Bytes)
    (ms : List Str) (cache : List (Bytes × CachedFileData)) :
    ∀ (fs : List (Str × Bytes)) (k zlen off : Nat),
      ∀ e ∈ (writeProcessedAux PackingMode.Full ms cache
          (fs.zip (processFilesFrom compress md5 PackingMode.Full ms cache k fs)) zlen off).1,
        (∃ pc ∈ fs, e.name_hash = calculate_md5 md5 pc.1
          ∧ e.uncompressed_size = pc.2.length) ∧
        zlen ≤ e.zsize_index ∧
        e.zsize_index ≤ zlen + ((writeProcessedAux PackingMode.Full ms cache
          (fs.zip (processFilesFrom compress md5 PackingMode.Full ms cache k fs)) zlen
          off).2.1).length ∧
        off ≤ e.offset ∧
        e.offset ≤ off + ((writeProcessedAux PackingMode.Full ms cache
          (fs.zip (processFilesFrom compress md5 PackingMode.Full ms cache k fs)) zlen
          off).2.2.1).length := by
  intro fs
  induction fs with
  | nil => intro k zlen off e he; exact absurd he (by simp [writeProcessedAux])
  | cons pc rest ih =>
    intro k zlen off e he
    have ihh := ih (k + 1) (zlen + ((processFileData compress pc.2).2).length)
      (off + ((processFileData compress pc.2).1).length)
    simp only [List.zip] at ihh
    simp only [processFilesFrom, processOneFile_full, List.zip_cons_cons, List.zip,
      writeProcessedAux, List.mem_cons] at he
    simp only [processFilesFrom, processOneFile_full, List.zip_cons_cons, List.zip,
      writeProcessedAux, List.length_append]
    rcases he with he | he
    · subst he
      exact ⟨⟨pc, List.mem_cons_self pc rest, rfl, rfl⟩, Nat.le_refl zlen,
        Nat.le_add_right zlen _, Nat.le_refl off, Nat.le_add_right off _⟩
    · obtain ⟨hfound, hz1, hz2, ho1, ho2⟩ := ihh e he
      obtain ⟨qc, hqc, hhash, huncq⟩ := hfound
      exact ⟨⟨qc, List.mem_cons_of_mem pc hqc, hhash, huncq⟩, by omega, by omega,
        by omega, by omega⟩

/-! ## Output path of a mapped entry -/

theorem entryOutPath_found (nameMap : List (Bytes × Str)) (h : Bytes) (p : Str)
    (hl : lookupA nameMap h = some p)
    (hhead : ¬ p.head? = some '/') :
    entryOutPath nameMap h = p := by
  unfold entryOutPath
  rw [hl]
  simp only []
  have hmapid : p.map (fun c => if c = '/' then mainSeparator else c) = p := by
    conv_rhs => rw [← List.map_id p]
    apply List.map_congr_left
    intro c _
    by_cases hc : c = '/'
    · rw [if_pos hc, hc]
      rfl
    · rw [if_neg hc]
      rfl
  rw [hmapid]
  rw [show mainSeparator = '/' from rfl]
  rw [if_neg hhead]

/-! ## The per-entry extraction loop on the entries written in full mode -/

theorem extract_files_loop (decompress : Bytes → Option Bytes) (compress : Bytes → Bytes)
    (md5 : Str → Bytes) (H1 : ∀ x, decompress (compress x) = some x)
    (H2 : ∀ x, isZlibHeader (compress x) = true)
    (b : Bytes) (zsAll : List Nat) (nameMap : List (Bytes × Str)) (toc : Nat)
    (ms : List Str) (cache : List (Bytes × CachedFileData)) (htoc : 0 < toc) :
    ∀ (fs : List (Str × Bytes)) (k zlen off : Nat),
      (∀ pc ∈ fs, pc.2 ≠ [] ∧ RawLastOk compress pc.2 ∧
        ¬ calculate_md5 md5 pc.1 = List.replicate 16 0 ∧
        entryOutPath nameMap (calculate_md5 md5 pc.1) = pc.1) →
      (∃ post, b.drop (off + toc)
        = (fs.map (fun pc => (processFileData compress pc.2).1)).flatten ++ post) →
      (∃ postz, zsAll.drop zlen
        = (fs.map (fun pc => (processFileData compress pc.2).2)).flatten ++ postz) →
      extractEntries decompress b zsAll 65536 nameMap
        (((writeProcessedAux PackingMode.Full ms cache
            (fs.zip (processFilesFrom compress md5 PackingMode.Full ms cache k fs)) zlen
            off).1).map
          (fun e => ⟨e.name_hash, e.zsize_index, e.uncompressed_size, e.offset + toc⟩))
        = .ok fs := by
  intro fs
  induction fs with
  | nil => intro k zlen off _ _ _; rfl
  | cons pc rest ih =>
    intro k zlen off hfile hbd hzs
    obtain ⟨post, hbd⟩ := hbd
    obtain ⟨postz, hzs⟩ := hzs
    obtain ⟨hcne, hrawc, hhashne, hout⟩ := hfile pc (List.mem_cons_self pc rest)
    simp only [List.map_cons, List.flatten_cons, List.append_assoc] at hbd hzs
    have hrec := ih (k + 1) (zlen + ((processFileData compress pc.2).2).length)
      (off + ((processFileData compress pc.2).1).length)
      (fun qc hqc => hfile qc (List.mem_cons_of_mem pc hqc))
      ⟨post, by
        have := drop_add_of_drop b (off + toc) ((processFileData compress pc.2).1) _ hbd
        rw [show off + toc + ((processFileData compress pc.2).1).length
          = off + ((processFileData compress pc.2).1).length + toc from by omega] at this
        exact this⟩
      ⟨postz, drop_add_of_drop zsAll zlen ((processFileData compress pc.2).2) _ hzs⟩
    simp only [List.zip] at hrec
    simp only [processFilesFrom, processOneFile_full, List.zip_cons_cons, List.zip,
      writeProcessedAux, List.map_cons]
    rw [extractEntries]
    rw [if_neg hhashne]
    have hoffne : ¬ off + toc = 0 := by omega
    rw [if_neg hoffne]
    have hread : read_file_data decompress b
        ⟨calculate_md5 md5 pc.1, zlen, pc.2.length, off + toc⟩ zsAll 65536 = .ok pc.2 := by
      apply read_file_data_ok decompress compress H1 H2 b zsAll pc.2 _ hcne hrawc rfl
      · exact ⟨(rest.map (fun qc => (processFileData compress qc.2).1)).flatten ++ post, hbd⟩
      · exact ⟨(rest.map (fun qc => (processFileData compress qc.2).2)).flatten ++ postz, hzs⟩
    rw [hread, hrec, hout]

/-! ## Small facts feeding the round-trip assembly -/

theorem scanDir_mem_sub : ∀ (l : List (Str × Bytes)) (pc : Str × Bytes),
    pc ∈ (scanDir l).1 → pc ∈ l := by
  intro l
  induction l with
  | nil => intro pc h; exact absurd h (by simp [scanDir])
  | cons qc rest ih =>
    intro pc h
    rw [scanDir] at h
    by_cases hf : isFilelistName qc.1 = true
    · rw [if_pos hf] at h
      exact List.mem_cons_of_mem qc (ih pc h)
    · rw [if_neg hf] at h
      rcases List.mem_cons.mp h with h1 | h1
      · rw [h1]
        exact List.mem_cons_self _ rest
      · exact List.mem_cons_of_mem qc (ih pc h1)

theorem utf8EncodeStr_ne_nil (s : Str) (hs : s ≠ []) : utf8EncodeStr s ≠ [] := by
  obtain ⟨c, t, rfl⟩ := List.exists_cons_of_ne_nil hs
  rw [utf8EncodeStr, List.map_cons, List.flatten_cons]
  intro hc
  exact utf8EncodeChar_ne_nil c (List.append_eq_nil.mp hc).1

theorem joinNL_ne_nil (p : Str) (rest : List Str) (hp : p ≠ []) :
    joinNL (p :: rest) ≠ [] := by
  cases rest with
  | nil => exact hp
  | cons q t =>
    rw [show joinNL (p :: q :: t) = p ++ '\n' :: joinNL (q :: t) from rfl]
    intro hc
    rcases List.append_eq_nil.mp hc with ⟨_, h2⟩
    exact List.cons_ne_nil _ _ h2

theorem RawLastOk_of_blocks (compress : Bytes → Bytes) (c : Bytes)
    (h : ∀ ch ∈ chunksOf BLOCK_SIZE c,
      (compress ch).length < ch.length ∨ ch.length = BLOCK_SIZE) :
    RawLastOk compress c := by
  intro h2 hraw hpart
  exfalso
  have hne : chunksOf BLOCK_SIZE c ≠ [] := by
    intro hc
    rw [hc] at h2
    simp at h2
  have hmem : (chunksOf BLOCK_SIZE c).getLastD [] ∈ chunksOf BLOCK_SIZE c := by
    rw [List.getLastD_eq_getLast? _ _]
    obtain ⟨x, hx⟩ := Option.ne_none_iff_exists.mp
      (mt List.getLast?_eq_none_iff.mp hne)
    rw [← hx]
    exact List.mem_of_mem_getLast? hx.symm
  rcases h _ hmem with hcmp | hfull
  · exact hraw hcmp
  · omega

theorem renderEntries_length (toc : Nat) :
    ∀ (es : List Entry), (∀ e ∈ es, e.name_hash.length = 16) →
      ((es.map (renderEntry toc)).flatten).length = 30 * es.length := by
  intro es
  induction es with
  | nil => intro _; rfl
  | cons e rest ih =>
    intro hset
    simp only [List.map_cons, List.flatten_cons, List.length_append, List.length_cons]
    rw [renderEntry_length toc e (hset e (List.mem_cons_self e rest)),
      ih (fun q hq => hset q (List.mem_cons_of_mem e hq))]
    ring

theorem be16_flatten_length (zs : List Nat) :
    ((zs.map be16).flatten).length = 2 * zs.length := by
  induction zs with
  | nil => rfl
  | cons z rest ih =>
    simp only [List.map_cons, List.flatten_cons, List.length_append, List.length_cons,
      be16_length, ih]
    ring

theorem processBlock_zsize_lt (compress : Bytes → Bytes) (ch : Bytes)
    (hle : ch.length ≤ 65536) : (processBlock compress ch).2 < 65536 := by
  by_cases hcomp : (compress ch).length < ch.length
  · rw [processBlock_pos compress ch hcomp]
    show (compress ch).length < 65536
    omega
  · rw [processBlock_neg compress ch hcomp]
    show (if ch.length = BLOCK_SIZE then 0 else ch.length) < 65536
    by_cases hfull : ch.length = BLOCK_SIZE
    · rw [if_pos hfull]
      omega
    · rw [if_neg hfull]
      have : ¬ ch.length = 65536 := hfull
      omega

theorem processFileData_zsize_lt (compress : Bytes → Bytes) (c : Bytes) :
    ∀ z ∈ (processFileData compress c).2, z < 65536 := by
  intro z hz
  have hbs : (0 : Nat) < BLOCK_SIZE := by norm_num [BLOCK_SIZE]
  have hz' : z ∈ (chunksOf BLOCK_SIZE c).map (fun ch => (processBlock compress ch).2) := hz
  obtain ⟨ch, hch, rfl⟩ := List.mem_map.mp hz'
  have := (mem_chunksOf_len BLOCK_SIZE hbs c ch hch).2
  exact processBlock_zsize_lt compress ch (by
    have hb65 : BLOCK_SIZE = 65536 := rfl
    omega)

/-- C1 (amended): the round trip holds for a pack in full mode when the
directory holds no on-disk manifest, every discovered file is non-empty,
well-formed as a manifest line, bounded, and safe for raw storage
(`RawLastOk`), the manifest blob has no raw partial block (`Hm`, the codec
shrinks every partial manifest chunk), the digest is injective on the
uppercased paths and never the all-zero hash, the codec is lossless with
genuine stream headers, and the archive fits the `u32`/40-bit header fields:
extracting the packed archive returns exactly the discovered
`(internal path, bytes)` pairs (as a permutation — the extractor walks the
hash-sorted TOC order) and saves the regenerated manifest.  Without these
amendments the claim is false: `claim_C1_roundtrip_cex` packs a one-file
directory with an honest incompressible codec and extraction cannot match
any file. -/
theorem claim_C1_roundtrip (compress : Bytes → Bytes) (decompress : Bytes → Option Bytes)
    (md5 : Str → Bytes) (dir : List (Str × Bytes)) (fs : List (Str × Bytes)) (flb : Bytes)
    (o : PackOutcome)
    (H1 : ∀ x, decompress (compress x) = some x)
    (H2 : ∀ x, isZlibHeader (compress x) = true)
    (H3 : ∀ s, (md5 s).length = 16)
    (H4 : ∀ s, ¬ md5 s = List.replicate 16 0)
    (Hinj : ∀ p ∈ dir.map Prod.fst, ∀ q ∈ dir.map Prod.fst,
      md5 (upperStr p) = md5 (upperStr q) → p = q)
    (Hwf : ∀ pc ∈ dir, pc.1 ≠ [] ∧ trimStr pc.1 = pc.1 ∧
      (∀ c ∈ pc.1, ¬ c = Char.ofNat 10) ∧ (∀ c ∈ pc.1, ¬ c = Char.ofNat 0) ∧
      ¬ pc.1.head? = some '/' ∧ pc.2 ≠ [] ∧ pc.2.length < 1099511627776 ∧
      RawLastOk compress pc.2)
    (Hscan : (scanDir dir).2 = none)
    (Hne : (scanDir dir).1 ≠ [])
    (hfs : resolve_file_order md5 (scanDir dir).1 (scanDir dir).2 = .ok (fs, flb))
    (Hm : ∀ ch ∈ chunksOf BLOCK_SIZE flb,
      (compress ch).length < ch.length ∨ ch.length = BLOCK_SIZE)
    (Hflb : flb.length < 1099511627776)
    (hpack : packCore compress md5 PackingMode.Full [] [] dir = .ok o)
    (Hsz : (renderArchive o).length < 4294967296) :
    ∃ r, extract_psarc_internal decompress md5 (renderArchive o) = .ok r
      ∧ r.files.Perm (scanDir dir).1
      ∧ r.filelist_saved = some flb := by
  -- Identify the resolved order: no on-disk manifest, so the hash-sort fallback.
  have hres : resolve_file_order md5 (scanDir dir).1 (scanDir dir).2
      = .ok (sortByHash md5 (scanDir dir).1,
        manifest_bytes_from_paths ((sortByHash md5 (scanDir dir).1).map Prod.fst)) := by
    rw [Hscan]
    rfl
  have hpairq := Except.ok.inj (hres.symm.trans hfs)
  have hfsv : fs = sortByHash md5 (scanDir dir).1 := (congrArg Prod.fst hpairq).symm
  have hflbv : flb
      = manifest_bytes_from_paths ((sortByHash md5 (scanDir dir).1).map Prod.fst) :=
    (congrArg Prod.snd hpairq).symm
  rw [← hfsv] at hflbv
  -- Abbreviations for the pack pipeline state.
  set md := processManifestData compress flb with hmd0
  set w := writeProcessedAux PackingMode.Full (normalizeModified []) []
    (fs.zip (processFilesFrom compress md5 PackingMode.Full (normalizeModified []) [] 0 fs))
    md.2.length md.1.length with hw
  have hpack2 : packCore compress md5 PackingMode.Full [] [] dir
      = .ok ⟨⟨List.replicate 16 0, 0, flb.length, 0⟩ :: w.1, md.2 ++ w.2.1,
          md.1 ++ w.2.2.1, w.2.2.2.1, w.2.2.2.2⟩ := by
    simp only [packCore]
    rw [hfs, hw, hmd0]
  rw [hpack2] at hpack
  have ho : o = ⟨⟨List.replicate 16 0, 0, flb.length, 0⟩ :: w.1, md.2 ++ w.2.1,
      md.1 ++ w.2.2.1, w.2.2.2.1, w.2.2.2.2⟩ := (Except.ok.inj hpack).symm
  subst ho
  set E := (⟨List.replicate 16 0, 0, flb.length, 0⟩ : Entry) :: w.1 with hE
  set Z := md.2 ++ w.2.1 with hZ
  set D := md.1 ++ w.2.2.1 with hD
  set toc := 32 + 30 * E.length + 2 * Z.length with htocdef
  set b := renderArchive ⟨E, Z, D, w.2.2.2.1, w.2.2.2.2⟩ with hbdef
  -- Per-file facts transported from the directory hypotheses.
  have hfsP : fs.Perm (scanDir dir).1 := by
    rw [hfsv]
    exact sortByHash_perm md5 _
  have hmemdir : ∀ pc ∈ fs, pc ∈ dir := fun pc hpc =>
    scanDir_mem_sub dir pc (hfsP.subset hpc)
  have hfsne : fs ≠ [] := by
    intro hc
    have hlen := hfsP.length_eq
    rw [hc] at hlen
    exact Hne (List.eq_nil_of_length_eq_zero hlen.symm)
  have hflbne : flb ≠ [] := by
    obtain ⟨pc0, fs2, hfs0⟩ := List.exists_cons_of_ne_nil hfsne
    rw [hflbv, hfs0]
    show utf8EncodeStr (joinNL (pc0.1 :: fs2.map Prod.fst)) ≠ []
    apply utf8EncodeStr_ne_nil
    apply joinNL_ne_nil
    exact (Hwf pc0 (hmemdir pc0 (hfs0 ▸ List.mem_cons_self pc0 fs2))).1
  have hmdPF : md = processFileData compress flb := by
    rw [hmd0]
    exact processManifestData_eq compress flb Hm
  -- The write-phase facts, folded back to `w`.
  have hwent := writeProcessed_full_entries compress md5 (normalizeModified []) [] fs 0
    md.2.length md.1.length
  rw [← hw] at hwent
  have hwzs : w.2.1 = (fs.map (fun pc => (processFileData compress pc.2).2)).flatten := by
    rw [hw]
    exact writeProcessed_full_zsizes compress md5 (normalizeModified []) [] fs 0 _ _
  have hwdat : w.2.2.1 = (fs.map (fun pc => (processFileData compress pc.2).1)).flatten := by
    rw [hw]
    exact writeProcessed_full_data compress md5 (normalizeModified []) [] fs 0 _ _
  -- Hash lengths of all TOC entries.
  have hE16 : ∀ e ∈ E, e.name_hash.length = 16 := by
    intro e he
    rw [hE] at he
    rcases List.mem_cons.mp he with he | he
    · subst he
      simp
    · obtain ⟨⟨pc, _, hhash, _⟩, _⟩ := hwent e he
      rw [hhash, calculate_md5_eq_upper]
      exact H3 _
  -- Length bookkeeping of the rendered archive.
  have htocB : ((E.map (renderEntry toc)).flatten).length = 30 * E.length :=
    renderEntries_length toc E hE16
  have hZlen : Z.length = md.2.length + w.2.1.length := by
    rw [hZ, List.length_append]
  have hDlen : D.length = md.1.length + w.2.2.1.length := by
    rw [hD, List.length_append]
  have e0 : b.drop 0 = psarMagic ++ (be16 1 ++ (be16 4 ++ (zlibTag ++ (be32 toc
      ++ (be32 30 ++ (be32 E.length ++ (be32 65536 ++ (be32 1
      ++ ((E.map (renderEntry toc)).flatten ++ ((Z.map be16).flatten ++ D)))))))))) := by
    rw [List.drop_zero, hbdef]
    simp only [renderArchive, BLOCK_SIZE]
    rw [← htocdef]
    simp only [List.append_assoc]
  have e1 := drop_add_of_drop b 0 psarMagic _ e0
  rw [show (0 : Nat) + psarMagic.length = 4 from rfl] at e1
  have e2 := drop_add_of_drop b 4 (be16 1) _ e1
  rw [show (4 : Nat) + (be16 1).length = 6 from rfl] at e2
  have e3 := drop_add_of_drop b 6 (be16 4) _ e2
  rw [show (6 : Nat) + (be16 4).length = 8 from rfl] at e3
  have e4 := drop_add_of_drop b 8 zlibTag _ e3
  rw [show (8 : Nat) + zlibTag.length = 12 from rfl] at e4
  have e5 := drop_add_of_drop b 12 (be32 toc) _ e4
  rw [show (12 : Nat) + (be32 toc).length = 16 from rfl] at e5
  have e6 := drop_add_of_drop b 16 (be32 30) _ e5
  rw [show (16 : Nat) + (be32 30).length = 20 from rfl] at e6
  have e7 := drop_add_of_drop b 20 (be32 E.length) _ e6
  rw [show (20 : Nat) + (be32 E.length).length = 24 from rfl] at e7
  have e8 := drop_add_of_drop b 24 (be32 65536) _ e7
  rw [show (24 : Nat) + (be32 65536).length = 28 from rfl] at e8
  have e9 := drop_add_of_drop b 28 (be32 1) _ e8
  rw [show (28 : Nat) + (be32 1).length = 32 from rfl] at e9
  have e10 := drop_add_of_drop b 32 ((E.map (renderEntry toc)).flatten) _ e9
  rw [htocB] at e10
  have e11 := drop_add_of_drop b (32 + 30 * E.length) ((Z.map be16).flatten) _ e10
  rw [be16_flatten_length] at e11
  have e11D : b.drop toc = D := by
    rw [htocdef]
    exact e11
  have hblen : b.length = toc + D.length := by
    have hlen := congrArg List.length e0
    rw [List.drop_zero] at hlen
    simp only [List.length_append, be16_length, be32_length, htocB,
      be16_flatten_length] at hlen
    rw [show psarMagic.length = 4 from rfl, show zlibTag.length = 4 from rfl] at hlen
    omega
  have htoc32 : toc < 4294967296 := by omega
  have hElen32 : E.length < 4294967296 := by omega
  -- The per-entry bounds for the TOC parser.
  have hsz40 : ∀ pc ∈ fs, pc.2.length < 1099511627776 := fun pc hpc =>
    (Hwf pc (hmemdir pc hpc)).2.2.2.2.2.2.1
  have hEcond : ∀ e ∈ E, e.name_hash.length = 16 ∧ e.zsize_index < 4294967296 ∧
      e.uncompressed_size < 1099511627776 ∧ e.offset + toc < 1099511627776 := by
    intro e he
    refine ⟨hE16 e he, ?_, ?_, ?_⟩
    · rw [hE] at he
      rcases List.mem_cons.mp he with he | he
      · subst he
        show (0 : Nat) < 4294967296
        omega
      · obtain ⟨_, _, hz2, _, _⟩ := hwent e he
        omega
    · rw [hE] at he
      rcases List.mem_cons.mp he with he | he
      · subst he
        exact Hflb
      · obtain ⟨⟨pc, hpc, _, huncq⟩, _⟩ := hwent e he
        rw [huncq]
        have := hsz40 pc hpc
        omega
    · rw [hE] at he
      rcases List.mem_cons.mp he with he | he
      · subst he
        show 0 + toc < 1099511627776
        omega
      · obtain ⟨_, _, _, _, ho2⟩ := hwent e he
        omega
  -- ZSize values fit u16.
  have hZlt : ∀ z ∈ Z, z < 65536 := by
    intro z hz
    rw [hZ] at hz
    rcases List.mem_append.mp hz with hz | hz
    · rw [hmdPF] at hz
      exact processFileData_zsize_lt compress flb z hz
    · rw [hwzs] at hz
      obtain ⟨l, hl, hzl⟩ := List.mem_flatten.mp hz
      obtain ⟨pc, _, rfl⟩ := List.mem_map.mp hl
      exact processFileData_zsize_lt compress pc.2 z hzl
  -- Header reads.
  have hr0 : readSlice b 0 4 = some psarMagic := by
    have h := readSlice_drop_eq b 0 psarMagic _ e0 (by decide)
    rw [show psarMagic.length = 4 from rfl] at h
    exact h
  have hr4 : readU16 b 4 = some 1 := by
    have h := readU16_drop b 4 1 _ e1
    rwa [Nat.mod_eq_of_lt (by norm_num)] at h
  have hr6 : readU16 b 6 = some 4 := by
    have h := readU16_drop b 6 4 _ e2
    rwa [Nat.mod_eq_of_lt (by norm_num)] at h
  have hr8 : readSlice b 8 4 = some zlibTag := by
    have h := readSlice_drop_eq b 8 zlibTag _ e3 (by decide)
    rw [show zlibTag.length = 4 from rfl] at h
    exact h
  have hr12 : readU32 b 12 = some toc := by
    have h := readU32_drop b 12 toc _ e4
    rwa [Nat.mod_eq_of_lt htoc32] at h
  have hr16 : readU32 b 16 = some 30 := by
    have h := readU32_drop b 16 30 _ e5
    rwa [Nat.mod_eq_of_lt (by norm_num)] at h
  have hr20 : readU32 b 20 = some E.length := by
    have h := readU32_drop b 20 E.length _ e6
    rwa [Nat.mod_eq_of_lt hElen32] at h
  have hr24 : readU32 b 24 = some 65536 := by
    have h := readU32_drop b 24 65536 _ e7
    rwa [Nat.mod_eq_of_lt (by norm_num)] at h
  have hr28 : readU32 b 28 = some 1 := by
    have h := readU32_drop b 28 1 _ e8
    rwa [Nat.mod_eq_of_lt (by norm_num)] at h
  have hentries : parseEntries b 32 E.length
      = some (E.map (fun e =>
          ⟨e.name_hash, e.zsize_index, e.uncompressed_size, e.offset + toc⟩)) :=
    parseEntries_drop b toc E 32 _ e9 hEcond
  have hzsizes : parseZsizes b (32 + 30 * E.length) Z.length = some Z :=
    parseZsizes_drop b Z (32 + 30 * E.length) _ e10 hZlt
  have hcount : (toc - 32 - E.length * 30) / 2 = Z.length := by omega
  -- The filename map recovered from the manifest.
  have hpaths2 : ∀ q ∈ fs.map Prod.fst, trimStr q = q ∧ ¬ q = [] ∧
      (∀ c ∈ q, ¬ c = Char.ofNat 10) ∧ (∀ c ∈ q, ¬ c = Char.ofNat 0) := by
    intro q hq
    obtain ⟨pc, hpc, rfl⟩ := List.mem_map.mp hq
    obtain ⟨h1, h2, h3, h4, _⟩ := Hwf pc (hmemdir pc hpc)
    exact ⟨h2, h1, h3, h4⟩
  have hinj2 : ∀ q ∈ fs.map Prod.fst, ∀ r ∈ fs.map Prod.fst,
      md5 (upperStr q) = md5 (upperStr r) → q = r := by
    intro q hq r hr heq
    obtain ⟨pc, hpc, rfl⟩ := List.mem_map.mp hq
    obtain ⟨qc, hqc, rfl⟩ := List.mem_map.mp hr
    exact Hinj pc.1 (List.mem_map_of_mem Prod.fst (hmemdir pc hpc)) qc.1
      (List.mem_map_of_mem Prod.fst (hmemdir qc hqc)) heq
  have hname : ∀ pc ∈ fs,
      lookupA (buildNameMap md5 flb) (calculate_md5 md5 pc.1) = some pc.1 := by
    intro pc hpc
    rw [calculate_md5_eq_upper, hflbv]
    exact buildNameMap_lookup md5 (fs.map Prod.fst) hpaths2 hinj2 pc.1
      (List.mem_map_of_mem Prod.fst hpc)
  have hfiles : ∀ pc ∈ fs, pc.2 ≠ [] ∧ RawLastOk compress pc.2 ∧
      ¬ calculate_md5 md5 pc.1 = List.replicate 16 0 ∧
      entryOutPath (buildNameMap md5 flb) (calculate_md5 md5 pc.1) = pc.1 := by
    intro pc hpc
    obtain ⟨_, _, _, _, hhead, hcne, _, hrawc⟩ := Hwf pc (hmemdir pc hpc)
    refine ⟨hcne, hrawc, ?_, ?_⟩
    · rw [calculate_md5_eq_upper]
      exact H4 _
    · exact entryOutPath_found (buildNameMap md5 flb) _ pc.1 (hname pc hpc) hhead
  -- Reading the manifest entry back.
  have hzm : Z.drop 0 = (processFileData compress flb).2 ++ w.2.1 := by
    rw [List.drop_zero, hZ, hmdPF]
  have hbm : b.drop (0 + toc) = (processFileData compress flb).1 ++ w.2.2.1 := by
    rw [Nat.zero_add, e11D, hD, hmdPF]
  have hmani : read_file_data decompress b
      ⟨List.replicate 16 0, 0, flb.length, 0 + toc⟩ Z 65536 = .ok flb :=
    read_file_data_ok decompress compress H1 H2 b Z flb _ hflbne
      (RawLastOk_of_blocks compress flb Hm) rfl ⟨w.2.2.1, hbm⟩ ⟨w.2.1, hzm⟩
  -- The per-entry loop on the real files.
  have hbf : b.drop (md.1.length + toc)
      = (fs.map (fun pc => (processFileData compress pc.2).1)).flatten ++ [] := by
    rw [List.append_nil]
    have h2 : b.drop toc = md.1 ++ w.2.2.1 := by
      rw [e11D, hD]
    have h1 := drop_add_of_drop b toc md.1 _ h2
    rw [show md.1.length + toc = toc + md.1.length from by omega, h1, hwdat]
  have hzf : Z.drop md.2.length
      = (fs.map (fun pc => (processFileData compress pc.2).2)).flatten ++ [] := by
    rw [List.append_nil, hZ, List.drop_left, hwzs]
  have hEx := extract_files_loop decompress compress md5 H1 H2 b Z
    (buildNameMap md5 flb) toc (normalizeModified []) [] (by omega) fs 0
    md.2.length md.1.length hfiles ⟨[], hbf⟩ ⟨[], hzf⟩
  rw [← hw] at hEx
  -- Assemble the extraction run.
  refine ⟨⟨some flb, fs⟩, ?_, hfsP, rfl⟩
  unfold extract_psarc_internal
  rw [hr0]
  simp only []
  rw [if_neg (fun hcon => hcon trivial)]
  rw [hr4, hr6]
  simp only []
  rw [hr8]
  simp only []
  rw [if_neg (fun hcon => hcon trivial)]
  rw [hr12, hr16, hr20, hr24, hr28]
  simp only []
  rw [hentries]
  simp only []
  rw [hcount, hzsizes]
  simp only []
  rw [hE, List.map_cons]
  simp only [List.head?_cons]
  rw [if_pos ⟨trivial, by show ¬ (0 + toc) = 0; omega⟩]
  rw [hmani]
  simp only []
  rw [extractEntries]
  rw [if_pos rfl]
  rw [hEx]

theorem claim_C1_roundtrip_witness :
    ∃ r, extract_psarc_internal stubInflateA stubMd5
        (renderArchive ((packCore stubCompressA stubMd5 PackingMode.Full [] []
          dirA).toOption.getD default))
      = .ok r
      ∧ r.files.Perm (scanDir dirA).1
      ∧ r.filelist_saved = some manifestA :=
  claim_C1_roundtrip stubCompressA stubInflateA stubMd5 dirA dirA manifestA
    ((packCore stubCompressA stubMd5 PackingMode.Full [] [] dirA).toOption.getD default)
    (by
      intro x
      by_cases hx : x = manifestA
      · rw [stubCompressA, if_pos hx, stubInflateA, if_pos rfl, hx]
      · rw [stubCompressA, if_neg hx, stubInflateA,
          if_neg (by simp), List.drop_succ_cons, List.drop_succ_cons, List.drop_succ_cons,
          List.drop_zero])
    (by
      intro x
      by_cases hx : x = manifestA
      · rw [stubCompressA, if_pos hx]
        rfl
      · rw [stubCompressA, if_neg hx]
        rfl)
    (by
      intro s
      rw [stubMd5, List.length_cons, List.length_take, List.length_append,
        List.length_replicate]
      omega)
    (by
      intro s hc
      rw [show (List.replicate 16 0 : Bytes) = 0 :: List.replicate 15 0 from rfl] at hc
      simp [stubMd5] at hc)
    (by decide)
    (by decide)
    (by decide)
    (by decide)
    (by decide)
    (by decide)
    (by decide)
    (by decide)
    (by decide)

/-- C1, refuted as stated: with an honest but incompressible zlib stand-in
(`stubCompressRaw` inflates every input by a three-byte header and
`stubInflateRaw` inverts it exactly), packing the one-file directory
`dirA = { "a.txt" : "hello\n" }` succeeds, extraction succeeds, yet no
discovered `(internal path, bytes)` pair is among the extracted files: the
manifest is stored as a raw partial block whose ZSize the packer writes as
`0` (`process_manifest_data`, line 395), so the extractor cannot read
`FileList.xml` back, loses every filename, and writes the file under
`_Unknowns/<hex>.bin` instead of `a.txt`. -/
theorem claim_C1_roundtrip_cex :
    (∀ x, stubInflateRaw (stubCompressRaw x) = some x) ∧
    (∀ x, isZlibHeader (stubCompressRaw x) = true) ∧
    (∀ s, (stubMd5 s).length = 16) ∧
    (∀ s, ¬ stubMd5 s = List.replicate 16 0) ∧
    (∃ o r, packCore stubCompressRaw stubMd5 PackingMode.Full [] [] dirA = .ok o ∧
      extract_psarc_internal stubInflateRaw stubMd5 (renderArchive o) = .ok r ∧
      ¬ r.files.Perm (scanDir dirA).1 ∧
      ∀ pc ∈ (scanDir dirA).1, ¬ pc ∈ r.files) := by
  refine ⟨fun x => rfl, fun x => rfl, ?_, ?_, ?_⟩
  · intro s
    rw [stubMd5, List.length_cons, List.length_take, List.length_append,
      List.length_replicate]
    omega
  · intro s hc
    rw [show (List.replicate 16 0 : Bytes) = 0 :: List.replicate 15 0 from rfl] at hc
    simp [stubMd5] at hc
  · refine ⟨(packCore stubCompressRaw stubMd5 PackingMode.Full [] []
        dirA).toOption.getD default,
      (extract_psarc_internal stubInflateRaw stubMd5
        (renderArchive ((packCore stubCompressRaw stubMd5 PackingMode.Full [] []
          dirA).toOption.getD default))).toOption.getD default,
      ?_, ?_, ?_, ?_⟩
    · decide
    · decide
    · decide
    · decide

end Psarc
